import Mathlib

/-!
Verification of the template-rendering and delivery pipeline of
src/streamlit_app.py (a personalized bulk-email sender).

The Python source is shallowly embedded below: each helper of the app
(clean_value, clean_email_address, safe_format, the defaults merge and
the send loop) is translated into an executable Lean definition over
String / List Char, and the stdlib collaborators that the app calls into
(email.utils.parseaddr backed by email._parseaddr.AddrlistClass, the
idna codec fast path, str.format_map) are translated from the stdlib
sources of the interpreter the app runs under (CPython 3.11).

Strings from the app's tables are modelled as Lean String values; rows
are ordered association lists, matching the insertion-ordered dicts the
code builds.  Mail transport (smtplib) and the UI layer are external
collaborators and are modelled as parameters (a transport outcome per
row, a cancellation signal), exactly as the spec delimits them.
-/

namespace EmailApp

/-! ## Python string primitives -/

/-- Whitespace characters recognised by Python str.strip / str.split and
by the regex class backslash-s on the code points that occur in this
development (ASCII whitespace, NEL and NBSP; the remaining exotic
Unicode space code points are never produced by any definition or input
below). -/
def pySpaceChars : List Char := [' ', '\t', '\n', '\r', '\x0b', '\x0c', '\x85', '\xA0']

def pyIsSpace (c : Char) : Bool := c ∈ pySpaceChars

/-- Python str.strip with no argument: drop leading and trailing
whitespace. -/
def pyStrip (s : List Char) : List Char :=
  ((s.dropWhile pyIsSpace).reverse.dropWhile pyIsSpace).reverse

def pyStripS (s : String) : String := String.mk (pyStrip s.data)

/-- clean_value (src/streamlit_app.py lines 22-30) on string cells:
replace non-breaking space by a plain space, remove zero-width spaces,
then strip.  Non-string cells pass through in the source; table cells in
this embedding are strings. -/
def clean_value (s : String) : String :=
  pyStripS (String.mk (((s.data.map (fun c => if c = '\xA0' then ' ' else c)).filter
    (fun c => c ≠ '\u200B'))))

/-! ## Ordered dictionaries (Python dict as ordered association list) -/

/-- A row: insertion-ordered mapping from column name to cell value
(Python 3.7+ dict preserves insertion order). -/
abbrev Row := List (String × String)

/-- Python dict.setdefault: if the key is present the dict is unchanged,
otherwise the pair is appended at the end. -/
def setdefault (r : Row) (k v : String) : Row :=
  if (List.lookup k r).isSome then r else r ++ [(k, v)]

/-- Python dict item assignment d[k] = v: replace the value in place if
the key is present, else append. -/
def setKey (r : Row) (k v : String) : Row :=
  match r with
  | [] => [(k, v)]
  | (k0, v0) :: rest => if k0 = k then (k, v) :: rest else (k0, v0) :: setKey rest k v

/-- Column names of a row, in order. -/
def rowKeys (r : Row) : List String := r.map Prod.fst

/-! ## email._parseaddr.AddrlistClass (CPython 3.11)

The app validates recipients with email.utils.parseaddr, which delegates
to email._parseaddr.AddrlistClass.  The class walks the input string with
a cursor self.pos and a running self.commentlist; here the state is the
remaining input (field[pos:]) plus the collected comments.  Each Python
while-loop becomes a fuel-indexed recursion; the fuel passed in by
pyParseaddr is large enough for every input (each loop iteration of the
source consumes input or is cut off by the fuel, and running out of fuel
can only truncate outputs, never invent characters). -/

def specialsChars : List Char := ['(', ')', '<', '>', '@', ',', ':', ';', '.', '"', '[', ']']

def lwsChars : List Char := [' ', '\t']

def crChars : List Char := ['\r', '\n']

def fwsChars : List Char := lwsChars ++ crChars

def atomends : List Char := specialsChars ++ lwsChars ++ crChars

/-- self.phraseends = self.atomends.replace('.', ''). -/
def phraseends : List Char := atomends.filter (fun c => c ≠ '.')

/-- Parser state: the unread rest of the field and the comment list. -/
structure PState where
  rest : List Char
  comments : List (List Char)
deriving Repr, DecidableEq

/-- email._parseaddr.quote: double backslashes, escape double quotes. -/
def pyQuote (s : List Char) : List Char :=
  s.flatMap (fun c =>
    if c = '\\' then ['\\', '\\'] else if c = '"' then ['\\', '"'] else [c])

/-- AddrlistClass.getatom: consume an atom, stopping at any character of
the given end set. -/
def getatom : Nat → List Char → PState → List Char × PState
  | 0, _, st => ([], st)
  | fuel + 1, ends, st =>
    match st.rest with
    | [] => ([], st)
    | c :: cs =>
      if c ∈ ends then ([], st)
      else
        let r := getatom fuel ends { st with rest := cs }
        (c :: r.1, r.2)

mutual

/-- Body of the AddrlistClass.getdelimited while-loop; the Bool argument
is the backslash-quote flag. -/
def getdelimitedLoop : Nat → List Char → Bool → Bool → PState → List Char × PState
  | 0, _, _, _, st => ([], st)
  | fuel + 1, endchars, allowcomments, quoteFlag, st =>
    match st.rest with
    | [] => ([], st)
    | c :: cs =>
      if quoteFlag then
        let r := getdelimitedLoop fuel endchars allowcomments false { st with rest := cs }
        (c :: r.1, r.2)
      else if c ∈ endchars then ([], { st with rest := cs })
      else if allowcomments ∧ c = '(' then
        let rc := getdelimited fuel '(' [')', '\r'] true st
        let r := getdelimitedLoop fuel endchars allowcomments false rc.2
        (rc.1 ++ r.1, r.2)
      else if c = '\\' then
        getdelimitedLoop fuel endchars allowcomments true { st with rest := cs }
      else
        let r := getdelimitedLoop fuel endchars allowcomments false { st with rest := cs }
        (c :: r.1, r.2)

/-- AddrlistClass.getdelimited. -/
def getdelimited : Nat → Char → List Char → Bool → PState → List Char × PState
  | 0, _, _, _, st => ([], st)
  | fuel + 1, beginchar, endchars, allowcomments, st =>
    match st.rest with
    | [] => ([], st)
    | c :: cs =>
      if c = beginchar then getdelimitedLoop fuel endchars allowcomments false { st with rest := cs }
      else ([], st)

end

/-- AddrlistClass.getcomment. -/
def getcomment (fuel : Nat) (st : PState) : List Char × PState :=
  getdelimited fuel '(' [')', '\r'] true st

/-- AddrlistClass.getquote. -/
def getquote (fuel : Nat) (st : PState) : List Char × PState :=
  getdelimited fuel '"' ['"', '\r'] false st

/-- AddrlistClass.getdomainliteral. -/
def getdomainliteral (fuel : Nat) (st : PState) : List Char × PState :=
  let r := getdelimited fuel '[' [']', '\r'] false st
  ('[' :: r.1 ++ [']'], r.2)

/-- AddrlistClass.gotonext: skip whitespace and collect comments,
returning the joined skipped linear whitespace. -/
def gotonext : Nat → PState → List Char × PState
  | 0, st => ([], st)
  | fuel + 1, st =>
    match st.rest with
    | [] => ([], st)
    | c :: cs =>
      if c ∈ lwsChars ++ crChars then
        let r := gotonext fuel { st with rest := cs }
        ((if c ∈ crChars then r.1 else c :: r.1), r.2)
      else if c = '(' then
        let rc := getcomment fuel st
        gotonext fuel { rc.2 with comments := rc.2.comments ++ [rc.1] }
      else ([], st)

/-- AddrlistClass.getphraselist. -/
def getphraselist : Nat → PState → List (List Char) × PState
  | 0, st => ([], st)
  | fuel + 1, st =>
    match st.rest with
    | [] => ([], st)
    | c :: cs =>
      if c ∈ fwsChars then getphraselist fuel { st with rest := cs }
      else if c = '"' then
        let rq := getquote fuel st
        let r := getphraselist fuel rq.2
        (rq.1 :: r.1, r.2)
      else if c = '(' then
        let rc := getcomment fuel st
        getphraselist fuel { rc.2 with comments := rc.2.comments ++ [rc.1] }
      else if c ∈ phraseends then ([], st)
      else
        let ra := getatom fuel phraseends st
        let r := getphraselist fuel ra.2
        (ra.1 :: r.1, r.2)

/-- Body of the AddrlistClass.getdomain while-loop (the accumulator is
sdlist); hitting a second at-sign discards everything (bpo-34155). -/
def getdomainLoop : Nat → List Char → PState → List Char × PState
  | 0, acc, st => (acc, st)
  | fuel + 1, acc, st =>
    match st.rest with
    | [] => (acc, st)
    | c :: cs =>
      if c ∈ lwsChars then getdomainLoop fuel acc { st with rest := cs }
      else if c = '(' then
        let rc := getcomment fuel st
        getdomainLoop fuel acc { rc.2 with comments := rc.2.comments ++ [rc.1] }
      else if c = '[' then
        let rd := getdomainliteral fuel st
        getdomainLoop fuel (acc ++ rd.1) rd.2
      else if c = '.' then getdomainLoop fuel (acc ++ ['.']) { st with rest := cs }
      else if c = '@' then ([], st)
      else if c ∈ atomends then (acc, st)
      else
        let ra := getatom fuel atomends st
        getdomainLoop fuel (acc ++ ra.1) ra.2

/-- AddrlistClass.getdomain. -/
def getdomain (fuel : Nat) (st : PState) : List Char × PState :=
  getdomainLoop fuel [] st

/-- In getaddrspec: if aslist and not aslist[-1].strip(): aslist.pop(). -/
def popBlankLast (acc : List (List Char)) : List (List Char) :=
  match acc.getLast? with
  | some l => if pyStrip l = [] then acc.dropLast else acc
  | none => acc

/-- Body of the AddrlistClass.getaddrspec local-part while-loop; the
accumulator is aslist, trailing blank entries popped as in the source,
quoted fragments re-quoted, inter-token whitespace preserved except
around dots. -/
def getaddrspecLoop : Nat → List (List Char) → PState → List (List Char) × PState
  | 0, acc, st => (acc, st)
  | fuel + 1, acc, st =>
    match st.rest with
    | [] => (acc, st)
    | c :: cs =>
      if c = '.' then
        let acc1 := popBlankLast acc ++ [['.']]
        let rw := gotonext fuel { st with rest := cs }
        getaddrspecLoop fuel acc1 rw.2
      else if c = '"' then
        let rq := getquote fuel st
        let acc1 := acc ++ [['"'] ++ pyQuote rq.1 ++ ['"']]
        let rw := gotonext fuel rq.2
        getaddrspecLoop fuel (if rw.1 ≠ [] then acc1 ++ [rw.1] else acc1) rw.2
      else if c ∈ atomends then (popBlankLast acc, st)
      else
        let ra := getatom fuel atomends st
        let acc1 := acc ++ [ra.1]
        let rw := gotonext fuel ra.2
        getaddrspecLoop fuel (if rw.1 ≠ [] then acc1 ++ [rw.1] else acc1) rw.2

/-- AddrlistClass.getaddrspec: local part, then the at-sign and domain;
an empty domain invalidates the whole addr-spec. -/
def getaddrspec (fuel : Nat) (st : PState) : List Char × PState :=
  let r0 := gotonext fuel st
  let r1 := getaddrspecLoop fuel [] r0.2
  match r1.2.rest with
  | c :: cs =>
    if c = '@' then
      let r2 := gotonext fuel { r1.2 with rest := cs }
      let r3 := getdomain fuel r2.2
      if r3.1 = [] then ([], r3.2)
      else ((r1.1.flatten ++ ['@']) ++ r3.1, r3.2)
    else (r1.1.flatten, r1.2)
  | [] => (r1.1.flatten, r1.2)

/-- Body of the AddrlistClass.getrouteaddr while-loop; the Bool is
expectroute. -/
def getrouteaddrLoop : Nat → Bool → PState → List Char × PState
  | 0, _, st => ([], st)
  | fuel + 1, expectroute, st =>
    match st.rest with
    | [] => ([], st)
    | c :: cs =>
      if expectroute then
        let rd := getdomain fuel st
        let rw := gotonext fuel rd.2
        getrouteaddrLoop fuel false rw.2
      else if c = '>' then ([], { st with rest := cs })
      else if c = '@' then
        let rw := gotonext fuel { st with rest := cs }
        getrouteaddrLoop fuel true rw.2
      else if c = ':' then
        let rw := gotonext fuel { st with rest := cs }
        getrouteaddrLoop fuel false rw.2
      else
        let ra := getaddrspec fuel st
        (ra.1, { ra.2 with rest := ra.2.rest.tail })

/-- AddrlistClass.getrouteaddr (only ever called looking at an opening
angle bracket). -/
def getrouteaddr (fuel : Nat) (st : PState) : List Char × PState :=
  match st.rest with
  | c :: cs =>
    if c = '<' then
      let rw := gotonext fuel { st with rest := cs }
      getrouteaddrLoop fuel false rw.2
    else ([], st)
  | [] => ([], st)

def joinSpace (xs : List (List Char)) : List Char := List.intercalate [' '] xs

/-- Consume one following comma after an address, as the tail of
AddrlistClass.getaddress does. -/
def dropComma (st : PState) : PState :=
  match st.rest with
  | c :: cs => if c = ',' then { st with rest := cs } else st
  | [] => st

mutual

/-- AddrlistClass.getaddress.  Returns (realname, addr) pairs; the
commentlist is reset on entry; in the addr-spec branch the cursor is
restored to the position saved after the initial gotonext (restoring the
comment list is a no-op in the source: oldcl aliases the same list
object). -/
def getaddress : Nat → PState → List (List Char × List Char) × PState
  | 0, st => ([], st)
  | fuel + 1, st =>
    let stR : PState := { st with comments := [] }
    let rw := gotonext fuel stR
    let saved := rw.2.rest
    let rp := getphraselist fuel rw.2
    let rw2 := gotonext fuel rp.2
    let step := getaddressStep fuel saved rp.1 rw2.2
    let rw3 := gotonext fuel step.2
    (step.1, dropComma rw3.2)

/-- The dispatch on the character after the leading phrase inside
AddrlistClass.getaddress. -/
def getaddressStep : Nat → List Char → List (List Char) → PState → List (List Char × List Char) × PState
  | 0, _, _, stC => ([], stC)
  | fuel + 1, saved, plist, stC =>
    match stC.rest with
    | [] =>
      (if plist ≠ [] then [(joinSpace stC.comments, plist.headD [])] else [], stC)
    | c :: cs =>
      if c = '.' ∨ c = '@' then
        let ra := getaddrspec fuel { stC with rest := saved }
        ([(joinSpace ra.2.comments, ra.1)], ra.2)
      else if c = ':' then
        getaddressGroupLoop fuel [] { stC with rest := cs }
      else if c = '<' then
        let rr := getrouteaddr fuel stC
        if rr.2.comments ≠ [] then
          ([(joinSpace plist ++ ' ' :: '(' :: joinSpace rr.2.comments ++ [')'], rr.1)], rr.2)
        else ([(joinSpace plist, rr.1)], rr.2)
      else if plist ≠ [] then ([(joinSpace stC.comments, plist.headD [])], stC)
      else if c ∈ specialsChars then ([], { stC with rest := cs })
      else ([], stC)

/-- The group (colon) branch of AddrlistClass.getaddress: collect
addresses until a semicolon. -/
def getaddressGroupLoop : Nat → List (List Char × List Char) → PState → List (List Char × List Char) × PState
  | 0, acc, st => (acc, st)
  | fuel + 1, acc, st =>
    match st.rest with
    | [] => (acc, st)
    | _ :: _ =>
      let rw := gotonext fuel st
      match rw.2.rest with
      | c2 :: cs =>
        if c2 = ';' then (acc, { rw.2 with rest := cs })
        else
          let ra := getaddress fuel rw.2
          getaddressGroupLoop fuel (acc ++ ra.1) ra.2
      | [] => (acc, rw.2)

end

/-- AddrlistClass.getaddrlist: parse addresses until the input is
exhausted; a getaddress that yields nothing contributes an empty pair. -/
def getaddrlist : Nat → PState → List (List Char × List Char) × PState
  | 0, st => ([], st)
  | fuel + 1, st =>
    match st.rest with
    | [] => ([], st)
    | _ :: _ =>
      let ra := getaddress fuel st
      let r := getaddrlist fuel ra.2
      ((if ra.1 ≠ [] then ra.1 else [([], [])]) ++ r.1, r.2)

/-- email.utils.parseaddr: first parsed (realname, addr) pair, or a pair
of empty strings; an empty field yields an empty address list
(email._parseaddr.AddressList only parses a truthy field). -/
def pyParseaddr (s : String) : String × String :=
  if s = "" then ("", "")
  else
    let fuel := (s.length + 4) * (s.length + 4) * (s.length + 4)
    match (getaddrlist fuel { rest := s.data, comments := [] }).1 with
    | [] => ("", "")
    | (n, a) :: _ => (String.mk n, String.mk a)

/-! ## Address normalization (clean_email_address) -/

/-- Split a list at dots, as bytes.split on the dot does in the idna
codec fast path. -/
def splitDots : List Char → List (List Char)
  | [] => [[]]
  | c :: cs =>
    let r := splitDots cs
    if c = '.' then [] :: r
    else
      match r with
      | l :: ls => (c :: l) :: ls
      | [] => [[c]]

/-- domain.encode("idna").decode("ascii"), from encodings/idna.py
Codec.encode: the empty string encodes to itself; an all-ASCII domain is
returned unchanged when every label but the last has length 1..63 and
the last has length below 64, and is rejected otherwise.  The non-ASCII
branch (nameprep plus punycode) is modelled as a failure: the app's
except-branch then ASCII-folds the domain, so every result below is
ASCII either way, and no claim in this file depends on the spelling
punycode would produce. -/
def pyEncodeIdna (domain : List Char) : Option (List Char) :=
  if domain = [] then some []
  else if domain.all (fun c => c.toNat < 128) then
    let labels := splitDots domain
    if labels.dropLast.all (fun l => 0 < l.length ∧ l.length < 64) ∧
        (labels.getLastD []).length < 64 then
      some domain
    else none
  else none

/-- addr.rsplit("@", 1) when the separator occurs: the part before the
last occurrence and the part after it. -/
def rsplitAt (xs : List Char) (c : Char) : List Char × List Char :=
  let p := xs.reverse.span (fun d => d ≠ c)
  match p.2 with
  | [] => (xs, [])
  | _ :: rest => (rest.reverse, p.1.reverse)

/-- re.sub of the character class angle brackets, whitespace, double and
single quote by the empty string. -/
def reSubStrip (s : List Char) : List Char :=
  s.filter (fun c => ¬ (c = '<' ∨ c = '>' ∨ c = '"' ∨ c = '\'' ∨ pyIsSpace c))

/-- Steps 1-3 of clean_email_address (src/streamlit_app.py lines 36-40):
sanitize, structured parse, fall back to stripping brackets, quotes and
whitespace when the parse yields no address, then strip. -/
def extractedAddr (raw : String) : List Char :=
  let cleaned := clean_value raw
  let addr0 := (pyParseaddr cleaned).2
  let addr1 := if addr0 = "" then reSubStrip cleaned.data else addr0.data
  pyStrip addr1

/-- clean_email_address (src/streamlit_app.py lines 32-51).  The
rsplit cannot raise once the at-sign check has passed, so the
try-except around it has no counterpart.  Table cells are strings in
this embedding, so the falsy check on the argument is the empty-string
check. -/
def clean_email_address (raw : String) : Option String :=
  if raw = "" then none
  else
    let addr := extractedAddr raw
    if '@' ∈ addr then
      let p := rsplitAt addr '@'
      let domain_ascii :=
        match pyEncodeIdna p.2 with
        | some d => d
        | none => p.2.filter (fun c => c.toNat < 128)
      some (String.mk (p.1 ++ '@' :: domain_ascii))
    else none

/-! ## Template rendering (safe_format) -/

/-- Characters ending the field-name part of a replacement field. -/
def fmtNameEnd (c : Char) : Bool := c == '}' || c == '!' || c == ':'

/-- str.format_map over a total lookup function (the app always passes a
defaultdict of str, so lookups never fail).  Modelled from CPython's
format-string scanner: doubled braces are literals, a lone closing brace
or an unterminated field raises, an open brace inside a field name
raises (CPython parse_field), and an empty or all-digit field name is a
positional field and raises because format_map passes no positional
arguments.  Conversions, format specs and attribute or index fields are
not modelled and are mapped to errors; wellFormedFmt below excludes
them, and no result in this file evaluates the model on them. -/
def pyFormatMap : Nat → List Char → (String → List Char) → Except String (List Char)
  | 0, _, _ => .error "out of fuel"
  | fuel + 1, cs, get =>
    match cs with
    | [] => .ok []
    | c :: rest =>
      if c = '}' then
        match rest with
        | c2 :: rest2 =>
          if c2 = '}' then (pyFormatMap fuel rest2 get).map (fun t => '}' :: t)
          else .error "single closing brace encountered in format string"
        | [] => .error "single closing brace encountered in format string"
      else if c = '{' then
        match rest with
        | [] => .error "expected closing brace before end of string"
        | c2 :: rest2 =>
          if c2 = '{' then (pyFormatMap fuel rest2 get).map (fun t => '{' :: t)
          else
            let nameCs := rest.takeWhile (fun d => !fmtNameEnd d)
            match rest.dropWhile (fun d => !fmtNameEnd d) with
            | [] => .error "expected closing brace before end of string"
            | d :: rest3 =>
              if d = '}' then
                if nameCs.any (fun e => e == '{') then
                  .error "unexpected open brace in field name"
                else if nameCs.all Char.isDigit then
                  .error "format string contains positional fields"
                else if nameCs.any (fun e => e == '.' || e == '[') then
                  .error "attribute and index fields are not modelled"
                else (pyFormatMap fuel rest3 get).map (fun t => get (String.mk nameCs) ++ t)
              else .error "conversion and format-spec fields are not modelled"
      else (pyFormatMap fuel rest get).map (fun t => c :: t)

/-- Templates on which the modelled format_map is total: balanced braces
and only simple named replacement fields. -/
def wellFormedFmt : Nat → List Char → Bool
  | 0, _ => false
  | fuel + 1, cs =>
    match cs with
    | [] => true
    | c :: rest =>
      if c = '}' then
        match rest with
        | c2 :: rest2 => if c2 = '}' then wellFormedFmt fuel rest2 else false
        | [] => false
      else if c = '{' then
        match rest with
        | [] => false
        | c2 :: rest2 =>
          if c2 = '{' then wellFormedFmt fuel rest2
          else
            let nameCs := rest.takeWhile (fun d => !fmtNameEnd d)
            match rest.dropWhile (fun d => !fmtNameEnd d) with
            | [] => false
            | d :: rest3 =>
              if d = '}' then
                if nameCs.any (fun e => e == '{') then false
                else if nameCs.all Char.isDigit then false
                else if nameCs.any (fun e => e == '.' || e == '[') then false
                else wellFormedFmt fuel rest3
              else false
      else wellFormedFmt fuel rest

def wellFormedTemplate (t : String) : Bool := wellFormedFmt (t.length + 1) t.data

/-- safe_format (src/streamlit_app.py lines 53-55):
template.format_map(defaultdict(str, mapping)); a key absent from the
mapping looks up as str(), the empty string. -/
def safe_format (template : String) (mapping : Row) : Except String String :=
  (pyFormatMap (template.length + 1) template.data
    (fun k => ((List.lookup k mapping).getD "").data)).map String.mk

/-! ## The send pipeline (send_clicked handler, lines 158-252) -/

/-- Configuration the UI layer hands to the send handler.  cost is
str(cost) of the number input. -/
structure Config where
  from_email : String
  app_password : String
  from_name : String
  currency : String
  cost : String
  subject_tpl : String
  body_tpl : String
deriving Repr, DecidableEq

/-- Per-row cell sanitization: rowd maps str(k) to clean_value(v) over
the row's items (line 173); keys are strings already. -/
def rowClean (row : Row) : Row := row.map (fun kv => (kv.1, clean_value kv.2))

/-- The setdefault cascade (lines 182-187). -/
def applyDefaults (cfg : Config) (rowd : Row) : Row :=
  setdefault (setdefault (setdefault (setdefault (setdefault rowd
    "sender" cfg.from_name) "cost" cfg.cost) "currency" cfg.currency) "company" "") "name" ""

/-- first_name = full_name.split()[0] if full_name.strip() else ""
(line 191): the first whitespace-delimited token, or the empty string
for a blank name. -/
def firstNameOf (full : String) : String :=
  if pyStrip full.data ≠ [] then
    String.mk ((full.data.dropWhile pyIsSpace).takeWhile (fun c => ¬ pyIsSpace c))
  else ""

/-- Outcome of the per-row body before the transport call: either the
row is recorded as skipped (missing/invalid email, lines 176-180), or a
message is ready with the merged row, recipient address and rendered
subject and body (lines 182-199). -/
inductive RowStep where
  | skipRow : Row → RowStep
  | sendRow : Row → String → String → String → RowStep
deriving Repr, DecidableEq

/-- The per-row pipeline of the send loop up to the transport call.
Template rendering happens outside any try-block in the source, so a
rendering error escapes the loop; it is surfaced in the error
component. -/
def processRow (cfg : Config) (row : Row) : Except String RowStep :=
  let rowd := rowClean row
  match clean_email_address ((List.lookup "email" rowd).getD "") with
  | none => .ok (.skipRow (setKey rowd "__reason" "missing/invalid email"))
  | some recip =>
    let rowd2 := applyDefaults cfg rowd
    let full_name := (List.lookup "name" rowd2).getD ""
    let body_mapping := setKey rowd2 "name" (firstNameOf full_name)
    match safe_format cfg.subject_tpl rowd2 with
    | .error e => .error e
    | .ok subj =>
      match safe_format cfg.body_tpl body_mapping with
      | .error e => .error e
      | .ok body => .ok (.sendRow rowd2 recip subj body)

/-- The report the run accumulates: the sent counter, the skipped and
failed row dicts (each original dict plus a reason under key __reason),
the progress events (idx+1 per processed row) and the indices after
which the 30-second countdown pause ran. -/
structure RunResult where
  sent : Nat
  skippedRows : List Row
  failedRows : List Row
  progressEvents : List Nat
  pauseAfter : List Nat
deriving Repr, DecidableEq

def emptyResult : RunResult := ⟨0, [], [], [], []⟩

/-- Records of a run: one outcome was recorded per processed row. -/
def reportRecords (r : RunResult) : Nat :=
  r.sent + r.skippedRows.length + r.failedRows.length

/-- The send loop (lines 172-250).  transport gives the outcome of the
smtplib send for each row index (none = delivered, some e = the caught
exception text, line 237-239).  stopSignal is the cancellation signal
the spec describes (RunState.stopRequested, polled at row boundaries
and during pauses); the source contains no cancellation mechanism, so
the loop never consults it.  A skipped row reaches continue before the
countdown block, so no pause is recorded for it; after a non-skipped
row that is not the last, the countdown pause runs (lines 243-250). -/
def sendLoopGo (cfg : Config) (transport : Nat → Option String)
    (stopSignal : Nat → Bool) (total : Nat) :
    Nat → List Row → RunResult → Except String RunResult
  | _, [], acc => .ok acc
  | idx, row :: rows, acc =>
    match processRow cfg row with
    | .error e => .error e
    | .ok (.skipRow srow) =>
      let acc1 := { acc with
        skippedRows := acc.skippedRows ++ [srow],
        progressEvents := acc.progressEvents ++ [idx + 1] }
      sendLoopGo cfg transport stopSignal total (idx + 1) rows acc1
    | .ok (.sendRow rowd _recip _subj _body) =>
      let acc1 :=
        match transport idx with
        | none => { acc with sent := acc.sent + 1 }
        | some e => { acc with failedRows := acc.failedRows ++ [setKey rowd "__reason" e] }
      let acc2 := { acc1 with progressEvents := acc1.progressEvents ++ [idx + 1] }
      let acc3 := if idx < total - 1 then { acc2 with pauseAfter := acc2.pauseAfter ++ [idx] }
                  else acc2
      sendLoopGo cfg transport stopSignal total (idx + 1) rows acc3

/-- Result of pressing Send: a validation failure before any work, a
crash (an exception that escaped the loop), or a completed run with its
report. -/
inductive AppOutcome where
  | configError : String → AppOutcome
  | crashed : String → AppOutcome
  | finished : RunResult → AppOutcome
deriving Repr, DecidableEq

/-- The send_clicked handler (lines 158-252): credentials then table
presence are validated (empty subject or body templates and an empty
but present table are not), then the loop runs over all rows. -/
def runApp (cfg : Config) (df : Option (List Row)) (transport : Nat → Option String)
    (stopSignal : Nat → Bool) : AppOutcome :=
  if cfg.from_email = "" ∨ cfg.app_password = "" then
    .configError "Please provide your email and app password."
  else
    match df with
    | none => .configError "Please upload a CSV file with recipients."
    | some rows =>
      match sendLoopGo cfg transport stopSignal rows.length 0 rows emptyResult with
      | .error e => .crashed e
      | .ok r => .finished r

/-- Default value each of the five computed keys receives in the
setdefault cascade. -/
def defaultVal (cfg : Config) (k : String) : String :=
  if k = "sender" then cfg.from_name
  else if k = "cost" then cfg.cost
  else if k = "currency" then cfg.currency
  else ""

/-! ## Spec-side descriptions of the send loop

The functions below state, in closed form, what the loop accumulates:
which rows are skipped, what the skipped/failed exports contain, how
often the transport succeeds, which progress events fire and after which
rows the countdown pause runs.  They are the comparison points for the
loop theorems. -/

def isSkipped (row : Row) : Bool :=
  (clean_email_address ((List.lookup "email" (rowClean row)).getD "")).isNone

def skipDict (row : Row) : Row := setKey (rowClean row) "__reason" "missing/invalid email"

def failDict (cfg : Config) (row : Row) (e : String) : Row :=
  setKey (applyDefaults cfg (rowClean row)) "__reason" e

def renderOk (cfg : Config) : Bool :=
  wellFormedTemplate cfg.subject_tpl && wellFormedTemplate cfg.body_tpl

def sentCount (tr : Nat → Option String) (idx : Nat) (rows : List Row) : Nat :=
  (rows.enumFrom idx).countP (fun p => !isSkipped p.2 && (tr p.1).isNone)

def skippedList (rows : List Row) : List Row :=
  (rows.filter (fun r => isSkipped r)).map skipDict

def failedList (cfg : Config) (tr : Nat → Option String) (idx : Nat) (rows : List Row) : List Row :=
  (rows.enumFrom idx).filterMap (fun p =>
    if isSkipped p.2 then none
    else
      match tr p.1 with
      | some e => some (failDict cfg p.2 e)
      | none => none)

def progressList (idx : Nat) (rows : List Row) : List Nat :=
  (rows.enumFrom idx).map (fun p => p.1 + 1)

def pauseList (total idx : Nat) (rows : List Row) : List Nat :=
  ((rows.enumFrom idx).filter (fun p => !isSkipped p.2 && decide (p.1 < total - 1))).map
    (fun p => p.1)

/-- Concrete fixtures used by witnesses and counterexamples below. -/
def cfgW : Config := ⟨"me@x.com", "pw", "Alice", "USD", "1000.0", "", ""⟩

def rowJo : Row := [("email", "john.doe@example.com"), ("name", "Jo Doe")]

def rowNoMail : Row := [("email", ""), ("name", "Nomail")]

/-- Simple replacement-field names: nonempty, not all digits, free of
braces, dots, brackets, conversion and spec markers. -/
def goodKey (kd : List Char) : Bool :=
  !kd.isEmpty && !kd.all Char.isDigit &&
    kd.all (fun c => !fmtNameEnd c && c != '.' && c != '[' && c != '{')

def cfgName : Config :=
  { cfgW with subject_tpl := "\x7bname\x7d", body_tpl := "\x7bname\x7d" }

def rowdJo : Row :=
  [("email", "john.doe@example.com"), ("name", "Jo Doe"), ("sender", "Alice"),
    ("cost", "1000.0"), ("currency", "USD"), ("company", "")]

/-- Characters the address parser can introduce that are not read from
its input: dots and quoting characters from getaddrspec and the domain
literal brackets.  The at-sign is deliberately not among them: every
at-sign in a parsed address comes from the input. -/
def extrasChars : List Char := ['.', '"', '\\', '[', ']']

/-- Every character of the output comes from the given input characters
or from the parser's own punctuation. -/
def subC (out rest : List Char) : Prop := ∀ c ∈ out, c ∈ rest ∨ c ∈ extrasChars

/-- Set inclusion of character lists. -/
def subR (a b : List Char) : Prop := ∀ c ∈ a, c ∈ b

/-! ## Lemmas: ordered-dictionary operations -/

theorem lookup_append_some {k : String} {r1 : Row} {v : String} (r2 : Row)
    (h : List.lookup k r1 = some v) : List.lookup k (r1 ++ r2) = some v := by
  induction r1 with
  | nil => simp [List.lookup] at h
  | cons p t ih =>
    obtain ⟨a, b⟩ := p
    rw [List.cons_append]
    by_cases hk : k = a
    · subst hk
      rw [List.lookup_cons, beq_self_eq_true] at h ⊢
      exact h
    · rw [List.lookup_cons, beq_false_of_ne hk] at h ⊢
      exact ih h

theorem lookup_append_none {k : String} {r1 : Row} (r2 : Row)
    (h : List.lookup k r1 = none) : List.lookup k (r1 ++ r2) = List.lookup k r2 := by
  induction r1 with
  | nil => simp
  | cons p t ih =>
    obtain ⟨a, b⟩ := p
    rw [List.cons_append]
    by_cases hk : k = a
    · subst hk
      rw [List.lookup_cons, beq_self_eq_true] at h
      exact absurd h (by simp)
    · rw [List.lookup_cons, beq_false_of_ne hk] at h ⊢
      exact ih h

theorem lookup_setdefault_self (r : Row) (k v : String) :
    List.lookup k (setdefault r k v) = some ((List.lookup k r).getD v) := by
  unfold setdefault
  cases h : List.lookup k r with
  | some v0 => simp [h]
  | none =>
    simp only [h, Option.isSome_none, Bool.false_eq_true, if_false, Option.getD_none]
    rw [lookup_append_none _ h]
    rw [List.lookup_cons, beq_self_eq_true]

theorem lookup_setdefault_ne (r : Row) {k kp : String} (v : String) (h : kp ≠ k) :
    List.lookup kp (setdefault r k v) = List.lookup kp r := by
  unfold setdefault
  split
  · rfl
  · cases h2 : List.lookup kp r with
    | some w => exact lookup_append_some _ h2
    | none =>
      rw [lookup_append_none _ h2, List.lookup_cons, beq_false_of_ne h]
      rfl

/-! ## Claim C1: merging a row with the defaults -/

/-- Claim C1, amended: for each of the keys sender, cost, currency,
company and name, the merged row holds the row's sanitized value
whenever the key is present — even when that value is blank — and the
configured default only when the key is absent (dict.setdefault never
overwrites a present value). -/
theorem C1_defaults_merge (cfg : Config) (rowd : Row) (k : String)
    (hk : k ∈ (["sender", "cost", "currency", "company", "name"] : List String)) :
    List.lookup k (applyDefaults cfg rowd) =
      some ((List.lookup k rowd).getD (defaultVal cfg k)) := by
  unfold applyDefaults
  fin_cases hk
  · rw [lookup_setdefault_ne _ _ (by decide), lookup_setdefault_ne _ _ (by decide),
      lookup_setdefault_ne _ _ (by decide), lookup_setdefault_ne _ _ (by decide),
      lookup_setdefault_self]
    simp [defaultVal]
  · rw [lookup_setdefault_ne _ _ (by decide), lookup_setdefault_ne _ _ (by decide),
      lookup_setdefault_ne _ _ (by decide), lookup_setdefault_self,
      lookup_setdefault_ne _ _ (by decide)]
    simp [defaultVal]
  · rw [lookup_setdefault_ne _ _ (by decide), lookup_setdefault_ne _ _ (by decide),
      lookup_setdefault_self, lookup_setdefault_ne _ _ (by decide),
      lookup_setdefault_ne _ _ (by decide)]
    simp [defaultVal]
  · rw [lookup_setdefault_ne _ _ (by decide), lookup_setdefault_self,
      lookup_setdefault_ne _ _ (by decide), lookup_setdefault_ne _ _ (by decide),
      lookup_setdefault_ne _ _ (by decide)]
    simp [defaultVal]
  · rw [lookup_setdefault_self, lookup_setdefault_ne _ _ (by decide),
      lookup_setdefault_ne _ _ (by decide), lookup_setdefault_ne _ _ (by decide),
      lookup_setdefault_ne _ _ (by decide)]
    simp [defaultVal]

/-- Claim C1, witness: on a row without a sender column the merge fills
in the configured sender default. -/
theorem C1_defaults_merge_witness :
    List.lookup "sender" (applyDefaults cfgW [("email", "e")]) =
      some ((List.lookup "sender" ([("email", "e")] : Row)).getD (defaultVal cfgW "sender")) :=
  C1_defaults_merge cfgW [("email", "e")] "sender" (by decide)

/-- Claim C1, counterexample to the claim as stated: a present-but-blank
sender cell is kept, not overwritten by the configured default. -/
theorem C1_counterexample :
    List.lookup "sender" ([("sender", "")] : Row) = some "" ∧
    cfgW.from_name = "Alice" ∧
    List.lookup "sender" (applyDefaults cfgW [("sender", "")]) = some "" ∧
    List.lookup "sender" (applyDefaults cfgW [("sender", "")]) ≠ some cfgW.from_name := by
  refine ⟨rfl, rfl, ?_, ?_⟩ <;> decide

/-! ## Lemmas: template rendering -/

theorem exceptMap_isOk {e : Except String (List Char)} {f : List Char → List Char} :
    (e.map f).isOk = e.isOk := by
  cases e <;> rfl

theorem takeWhile_append_cons {p : Char → Bool} {xs : List Char} {y : Char} (ys : List Char)
    (hxs : ∀ x ∈ xs, p x = true) (hy : p y = false) :
    (xs ++ y :: ys).takeWhile p = xs := by
  induction xs with
  | nil => simp [List.takeWhile, hy]
  | cons a t ih =>
    have ha : p a = true := hxs a (by simp)
    simp only [List.cons_append, List.takeWhile_cons, ha, if_true]
    rw [ih (fun x hx => hxs x (by simp [hx]))]

theorem dropWhile_append_cons {p : Char → Bool} {xs : List Char} {y : Char} (ys : List Char)
    (hxs : ∀ x ∈ xs, p x = true) (hy : p y = false) :
    (xs ++ y :: ys).dropWhile p = y :: ys := by
  induction xs with
  | nil => simp [List.dropWhile, hy]
  | cons a t ih =>
    have ha : p a = true := hxs a (by simp)
    simp only [List.cons_append, List.dropWhile_cons, ha, if_true]
    exact ih (fun x hx => hxs x (by simp [hx]))

/-- On a template the well-formedness check accepts, the modelled
format_map never fails, whatever the lookup function returns. -/
theorem wellFormedFmt_isOk (get : String → List Char) :
    ∀ (fuel : Nat) (cs : List Char), wellFormedFmt fuel cs = true →
      (pyFormatMap fuel cs get).isOk = true := by
  intro fuel
  induction fuel with
  | zero => intro cs h; simp [wellFormedFmt] at h
  | succ fuel ih =>
    intro cs h
    cases cs with
    | nil => rfl
    | cons c rest =>
      simp only [wellFormedFmt] at h
      simp only [pyFormatMap]
      by_cases hc : c = '}'
      · simp only [if_pos hc] at h ⊢
        cases rest with
        | nil => simp at h
        | cons c2 rest2 =>
          by_cases hc2 : c2 = '}'
          · simp only [if_pos hc2] at h ⊢
            rw [exceptMap_isOk]
            exact ih rest2 h
          · simp [hc2] at h
      · by_cases hb : c = '{'
        · simp only [if_neg hc, if_pos hb] at h ⊢
          cases rest with
          | nil => simp at h
          | cons c2 rest2 =>
            by_cases hc2 : c2 = '{'
            · simp only [if_pos hc2] at h ⊢
              rw [exceptMap_isOk]
              exact ih rest2 h
            · simp only [if_neg hc2] at h ⊢
              cases hd : (c2 :: rest2).dropWhile (fun d => !fmtNameEnd d) with
              | nil => rw [hd] at h; simp at h
              | cons d rest3 =>
                rw [hd] at h
                dsimp only at h ⊢
                by_cases hdd : d = '}'
                · rw [if_pos hdd] at h ⊢
                  by_cases h0 : (((c2 :: rest2).takeWhile (fun d => !fmtNameEnd d)).any
                      (fun e => e == '{')) = true
                  · rw [if_pos h0] at h
                    exact absurd h (by simp)
                  · rw [if_neg h0] at h ⊢
                    by_cases h1 :
                        ((c2 :: rest2).takeWhile (fun d => !fmtNameEnd d)).all Char.isDigit = true
                    · rw [if_pos h1] at h
                      exact absurd h (by simp)
                    · rw [if_neg h1] at h ⊢
                      by_cases h2 : (((c2 :: rest2).takeWhile (fun d => !fmtNameEnd d)).any
                          (fun e => e == '.' || e == '[')) = true
                      · rw [if_pos h2] at h
                        exact absurd h (by simp)
                      · rw [if_neg h2] at h ⊢
                        rw [exceptMap_isOk]
                        exact ih rest3 h
                · rw [if_neg hdd] at h
                  exact absurd h (by simp)
        · simp only [if_neg hc, if_neg hb] at h ⊢
          rw [exceptMap_isOk]
          exact ih rest h


theorem safe_format_isOk (t : String) (m : Row) (h : wellFormedTemplate t = true) :
    ∃ s, safe_format t m = .ok s := by
  unfold wellFormedTemplate at h
  unfold safe_format
  have h2 := wellFormedFmt_isOk (fun kp => ((List.lookup kp m).getD "").data)
    (t.length + 1) t.data h
  cases hpf : pyFormatMap (t.length + 1) t.data (fun kp => ((List.lookup kp m).getD "").data) with
  | error e => rw [hpf] at h2; exact absurd h2 (by simp [Except.isOk, Except.toBool])
  | ok v => exact ⟨String.mk v, rfl⟩

theorem string_mk_data (s : String) : String.mk s.data = s := rfl

theorem string_data_mk (l : List Char) : (String.mk l).data = l := rfl

theorem pyFormatMap_nil (fuel : Nat) (get : String → List Char) :
    pyFormatMap (fuel + 1) [] get = .ok [] := rfl

theorem pyFormatMap_step_field (fuel : Nat) (kd : List Char) (rest : List Char)
    (get : String → List Char)
    (hne : kd ≠ [])
    (hallf : ∀ x ∈ kd, (!fmtNameEnd x) = true)
    (hbrace : ∀ x ∈ kd, ¬ x = '{')
    (hdig : ¬ (kd.all Char.isDigit = true))
    (hdot : ¬ (kd.any (fun e => e == '.' || e == '[') = true)) :
    pyFormatMap (fuel + 1) ('{' :: (kd ++ '}' :: rest)) get =
      (pyFormatMap fuel rest get).map (fun t => get (String.mk kd) ++ t) := by
  obtain ⟨k0, ktail, rfl⟩ : ∃ k0 ktail, kd = k0 :: ktail := by
    cases kd with
    | nil => exact absurd rfl hne
    | cons a t => exact ⟨a, t, rfl⟩
  simp only [pyFormatMap, List.cons_append]
  rw [if_true]
  rw [if_neg (hbrace k0 (by simp))]
  have htake : List.takeWhile (fun d => !fmtNameEnd d) (k0 :: (ktail ++ '}' :: rest)) =
      k0 :: ktail := by
    have h4 := @takeWhile_append_cons (fun d => !fmtNameEnd d) (k0 :: ktail) '}'
      rest hallf (by decide)
    simpa using h4
  have hdrop : List.dropWhile (fun d => !fmtNameEnd d) (k0 :: (ktail ++ '}' :: rest)) =
      '}' :: rest := by
    have h4 := @dropWhile_append_cons (fun d => !fmtNameEnd d) (k0 :: ktail) '}'
      rest hallf (by decide)
    simpa using h4
  rw [htake, hdrop]
  dsimp only
  have hnob : ¬ ((k0 :: ktail).any (fun e => e == '{') = true) := by
    simp only [List.any_eq_true, not_exists]
    intro x hcontra
    obtain ⟨hx, hxb⟩ := hcontra
    exact hbrace x hx (by simpa using hxb)
  rw [if_pos rfl, if_neg hnob, if_neg hdig, if_neg hdot]
  rw [if_neg (by decide : ¬ ('{' : Char) = '}')]

theorem render_single_placeholder (k : String) (m : Row) (hk : goodKey k.data = true) :
    safe_format (String.mk ('{' :: k.data ++ ['}'])) m =
      .ok ((List.lookup k m).getD "") := by
  unfold goodKey at hk
  simp only [Bool.and_eq_true] at hk
  obtain ⟨⟨hne, hdig⟩, hall⟩ := hk
  have hall2 := List.all_eq_true.mp hall
  have hne2 : k.data ≠ [] := by
    intro hcon
    rw [hcon] at hne
    simp at hne
  have hallf : ∀ x ∈ k.data, (!fmtNameEnd x) = true := by
    intro x hx
    have h3 := hall2 x hx
    simp only [Bool.and_eq_true] at h3
    exact h3.1.1.1
  have hbrace : ∀ x ∈ k.data, ¬ x = '{' := by
    intro x hx
    have h3 := hall2 x hx
    simp only [Bool.and_eq_true, bne_iff_ne, ne_eq] at h3
    exact h3.2
  have hdig2 : ¬ (k.data.all Char.isDigit = true) := by simpa using hdig
  have hdot : ¬ (k.data.any (fun e => e == '.' || e == '[') = true) := by
    simp only [List.any_eq_true, not_exists]
    intro x
    intro hcontra
    obtain ⟨hx, hor⟩ := hcontra
    have h3 := hall2 x hx
    simp only [Bool.and_eq_true, bne_iff_ne, ne_eq] at h3
    rcases Bool.or_eq_true_iff.mp hor with h5 | h5
    · exact h3.1.1.2 (by simpa using h5)
    · exact h3.1.2 (by simpa using h5)
  unfold safe_format
  have hlen : (String.mk ('{' :: k.data ++ ['}'])).length = k.data.length + 2 := by
    simp [String.length_mk]
  rw [hlen]
  show Except.map String.mk (pyFormatMap (k.data.length + 2 + 1) ('{' :: (k.data ++ '}' :: []))
    (fun kp => ((List.lookup kp m).getD "").data)) = Except.ok ((List.lookup k m).getD "")
  rw [pyFormatMap_step_field (k.data.length + 2) k.data [] _ hne2 hallf hbrace hdig2 hdot]
  have h6 : k.data.length + 2 = k.data.length + 1 + 1 := rfl
  rw [h6, pyFormatMap_nil, string_mk_data]
  simp [Except.map, string_mk_data]

theorem lookupD_append_blank {m : Row} {k : String} (hk : List.lookup k m = none) :
    (fun kp => ((List.lookup kp (m ++ [(k, "")])).getD "").data) =
      (fun kp => ((List.lookup kp m).getD "").data) := by
  funext kp
  cases h1 : List.lookup kp m with
  | some v => rw [lookup_append_some _ h1]
  | none =>
    rw [lookup_append_none _ h1]
    by_cases hkk : kp = k
    · subst hkk
      rw [List.lookup_cons, beq_self_eq_true]
      rfl
    · rw [List.lookup_cons, beq_false_of_ne hkk]
      rfl

/-! ## Claim C4: rendering never raises, absent keys render empty -/

/-- Claim C4, amended: for every well-formed template (balanced braces,
simple named placeholders) and every row mapping, rendering never
raises; a key absent from the row behaves exactly as a key bound to the
empty string, and a simple placeholder field substitutes the row's value
for its key — the empty string when the key is absent — leaving no
literal placeholder behind. -/
theorem C4_render_never_raises :
    (∀ (t : String) (m : Row), wellFormedTemplate t = true → (safe_format t m).isOk = true) ∧
    (∀ (t : String) (m : Row) (k : String), List.lookup k m = none →
      safe_format t (m ++ [(k, "")]) = safe_format t m) ∧
    (∀ (k : String) (m : Row), goodKey k.data = true →
      safe_format (String.mk ('{' :: k.data ++ ['}'])) m = .ok ((List.lookup k m).getD "")) := by
  refine ⟨?_, ?_, ?_⟩
  · intro t m h
    obtain ⟨s, hs⟩ := safe_format_isOk t m h
    rw [hs]
    rfl
  · intro t m k hk
    unfold safe_format
    rw [lookupD_append_blank hk]
  · intro k m hk
    exact render_single_placeholder k m hk

/-- Claim C4, witness: the spec's own example renders, and an absent
key substitutes as the empty string. -/
theorem C4_render_never_raises_witness :
    (safe_format "Hi \x7bname\x7d from \x7bcompany\x7d" [("name", "Ann")]).isOk = true ∧
    safe_format (String.mk ('{' :: "name".data ++ ['}'])) [] = .ok "" := by
  constructor
  · exact C4_render_never_raises.1 "Hi \x7bname\x7d from \x7bcompany\x7d" [("name", "Ann")]
      (by decide)
  · have h := C4_render_never_raises.2.2 "name" [] (by decide)
    simpa using h

/-- Claim C4, counterexample to the claim as stated: on the template
consisting of a single opening brace, format_map raises (Python:
ValueError), so rendering does not succeed for every template string. -/
theorem C4_counterexample : (safe_format "\x7b" []).isOk = false := by decide


/-! ## Lemmas: the send loop -/

theorem processRow_skip (cfg : Config) (row : Row) (h : isSkipped row = true) :
    processRow cfg row = .ok (.skipRow (skipDict row)) := by
  unfold isSkipped at h
  unfold processRow skipDict
  dsimp only
  cases hc : clean_email_address ((List.lookup "email" (rowClean row)).getD "") with
  | none => rfl
  | some a => rw [hc] at h; simp [Option.isNone] at h

theorem processRow_send (cfg : Config) (row : Row) (h : isSkipped row = false)
    (hr : renderOk cfg = true) :
    ∃ recip subj body,
      processRow cfg row = .ok (.sendRow (applyDefaults cfg (rowClean row)) recip subj body) := by
  unfold isSkipped at h
  unfold renderOk at hr
  simp only [Bool.and_eq_true] at hr
  unfold processRow
  dsimp only
  cases hc : clean_email_address ((List.lookup "email" (rowClean row)).getD "") with
  | none => rw [hc] at h; simp [Option.isNone] at h
  | some recip =>
    obtain ⟨subj, hsubj⟩ := safe_format_isOk cfg.subject_tpl (applyDefaults cfg (rowClean row)) hr.1
    obtain ⟨body, hbody⟩ := safe_format_isOk cfg.body_tpl
      (setKey (applyDefaults cfg (rowClean row)) "name"
        (firstNameOf ((List.lookup "name" (applyDefaults cfg (rowClean row))).getD ""))) hr.2
    rw [hsubj, hbody]
    exact ⟨recip, subj, body, rfl⟩

theorem sendLoopGo_spec (cfg : Config) (tr : Nat → Option String) (stop : Nat → Bool)
    (total : Nat) (hr : renderOk cfg = true) :
    ∀ (rows : List Row) (idx : Nat) (acc : RunResult),
    sendLoopGo cfg tr stop total idx rows acc = .ok
      { sent := acc.sent + sentCount tr idx rows,
        skippedRows := acc.skippedRows ++ skippedList rows,
        failedRows := acc.failedRows ++ failedList cfg tr idx rows,
        progressEvents := acc.progressEvents ++ progressList idx rows,
        pauseAfter := acc.pauseAfter ++ pauseList total idx rows } := by
  intro rows
  induction rows with
  | nil =>
    intro idx acc
    simp [sendLoopGo, sentCount, skippedList, failedList, progressList, pauseList,
      List.enumFrom]
  | cons row rows ih =>
    intro idx acc
    by_cases hs : isSkipped row = true
    · rw [sendLoopGo, processRow_skip cfg row hs]
      dsimp only
      rw [ih (idx + 1) _]
      simp only [Except.ok.injEq, RunResult.mk.injEq]
      refine ⟨?_, ?_, ?_, ?_, ?_⟩
      · simp [sentCount, List.enumFrom_cons, List.countP_cons, hs]
      · simp [skippedList, List.filter_cons, hs, List.append_assoc]
      · simp [failedList, List.enumFrom_cons, List.filterMap_cons, hs]
      · simp [progressList, List.enumFrom_cons, List.append_assoc]
      · simp [pauseList, List.enumFrom_cons, List.filter_cons, hs]
    · have hs2 : isSkipped row = false := by
        cases h2 : isSkipped row with
        | true => exact absurd h2 hs
        | false => rfl
      obtain ⟨recip, subj, body, hpr⟩ := processRow_send cfg row hs2 hr
      rw [sendLoopGo, hpr]
      dsimp only
      cases ht : tr idx with
      | none =>
        dsimp only
        by_cases hp : idx < total - 1
        · simp only [if_pos hp]
          rw [ih (idx + 1) _]
          simp only [Except.ok.injEq, RunResult.mk.injEq]
          refine ⟨?_, ?_, ?_, ?_, ?_⟩
          · simp [sentCount, List.enumFrom_cons, List.countP_cons, hs2, ht]
            omega
          · simp [skippedList, List.filter_cons, hs2]
          · simp [failedList, List.enumFrom_cons, List.filterMap_cons, hs2, ht]
          · simp [progressList, List.enumFrom_cons, List.append_assoc]
          · simp [pauseList, List.enumFrom_cons, List.filter_cons, hs2, hp, List.append_assoc]
        · simp only [if_neg hp]
          rw [ih (idx + 1) _]
          simp only [Except.ok.injEq, RunResult.mk.injEq]
          refine ⟨?_, ?_, ?_, ?_, ?_⟩
          · simp [sentCount, List.enumFrom_cons, List.countP_cons, hs2, ht]
            omega
          · simp [skippedList, List.filter_cons, hs2]
          · simp [failedList, List.enumFrom_cons, List.filterMap_cons, hs2, ht]
          · simp [progressList, List.enumFrom_cons, List.append_assoc]
          · simp [pauseList, List.enumFrom_cons, List.filter_cons, hs2, hp]
      | some e =>
        dsimp only
        by_cases hp : idx < total - 1
        · simp only [if_pos hp]
          rw [ih (idx + 1) _]
          simp only [Except.ok.injEq, RunResult.mk.injEq]
          refine ⟨?_, ?_, ?_, ?_, ?_⟩
          · simp [sentCount, List.enumFrom_cons, List.countP_cons, hs2, ht]
          · simp [skippedList, List.filter_cons, hs2]
          · simp [failedList, List.enumFrom_cons, List.filterMap_cons, hs2, ht, failDict,
              List.append_assoc]
          · simp [progressList, List.enumFrom_cons, List.append_assoc]
          · simp [pauseList, List.enumFrom_cons, List.filter_cons, hs2, hp, List.append_assoc]
        · simp only [if_neg hp]
          rw [ih (idx + 1) _]
          simp only [Except.ok.injEq, RunResult.mk.injEq]
          refine ⟨?_, ?_, ?_, ?_, ?_⟩
          · simp [sentCount, List.enumFrom_cons, List.countP_cons, hs2, ht]
          · simp [skippedList, List.filter_cons, hs2]
          · simp [failedList, List.enumFrom_cons, List.filterMap_cons, hs2, ht, failDict,
              List.append_assoc]
          · simp [progressList, List.enumFrom_cons, List.append_assoc]
          · simp [pauseList, List.enumFrom_cons, List.filter_cons, hs2, hp]

theorem sendLoopGo_stop_irrelevant (cfg : Config) (tr : Nat → Option String)
    (s1 s2 : Nat → Bool) (total : Nat) :
    ∀ (rows : List Row) (idx : Nat) (acc : RunResult),
    sendLoopGo cfg tr s1 total idx rows acc = sendLoopGo cfg tr s2 total idx rows acc := by
  intro rows
  induction rows with
  | nil => intro idx acc; rfl
  | cons row rows ih =>
    intro idx acc
    rw [sendLoopGo, sendLoopGo]
    cases hpr : processRow cfg row with
    | error e => rfl
    | ok step =>
      cases step with
      | skipRow srow => dsimp only; rw [ih]
      | sendRow rowd recip subj body => dsimp only; rw [ih]

theorem runApp_stop_irrelevant (cfg : Config) (df : Option (List Row))
    (tr : Nat → Option String) (s1 s2 : Nat → Bool) :
    runApp cfg df tr s1 = runApp cfg df tr s2 := by
  unfold runApp
  split
  · rfl
  · cases df with
    | none => rfl
    | some rows =>
      dsimp only
      rw [sendLoopGo_stop_irrelevant cfg tr s1 s2]

theorem sentCount_nil (tr : Nat → Option String) (idx : Nat) : sentCount tr idx [] = 0 := rfl

theorem sentCount_cons (tr : Nat → Option String) (idx : Nat) (row : Row) (rows : List Row) :
    sentCount tr idx (row :: rows) =
      sentCount tr (idx + 1) rows +
        (if (!isSkipped row && (tr idx).isNone) = true then 1 else 0) := by
  simp [sentCount, List.enumFrom_cons, List.countP_cons]

theorem skippedList_cons (row : Row) (rows : List Row) :
    skippedList (row :: rows) =
      (if isSkipped row = true then [skipDict row] else []) ++ skippedList rows := by
  cases hs : isSkipped row <;> simp [skippedList, List.filter_cons, hs]

theorem failedList_cons (cfg : Config) (tr : Nat → Option String) (idx : Nat) (row : Row)
    (rows : List Row) :
    failedList cfg tr idx (row :: rows) =
      (if isSkipped row = true then []
        else
          match tr idx with
          | some e => [failDict cfg row e]
          | none => []) ++ failedList cfg tr (idx + 1) rows := by
  cases hs : isSkipped row with
  | true => simp [failedList, List.enumFrom_cons, List.filterMap_cons, hs]
  | false =>
    cases ht : tr idx <;>
      simp [failedList, List.enumFrom_cons, List.filterMap_cons, hs, ht]

theorem progressList_cons (idx : Nat) (row : Row) (rows : List Row) :
    progressList idx (row :: rows) = (idx + 1) :: progressList (idx + 1) rows := by
  simp [progressList, List.enumFrom_cons]

theorem pauseList_cons (total idx : Nat) (row : Row) (rows : List Row) :
    pauseList total idx (row :: rows) =
      (if (!isSkipped row && decide (idx < total - 1)) = true then [idx] else []) ++
        pauseList total (idx + 1) rows := by
  cases h : (!isSkipped row && decide (idx < total - 1)) <;>
    simp [pauseList, List.enumFrom_cons, List.filter_cons, h]

theorem countsTotal (cfg : Config) (tr : Nat → Option String) :
    ∀ (rows : List Row) (idx : Nat),
    sentCount tr idx rows + (skippedList rows).length + (failedList cfg tr idx rows).length =
      rows.length := by
  intro rows
  induction rows with
  | nil => intro idx; rfl
  | cons row rows ih =>
    intro idx
    have h := ih (idx + 1)
    rw [sentCount_cons, skippedList_cons, failedList_cons, List.length_append,
      List.length_append, List.length_cons]
    cases hs : isSkipped row with
    | true => simp only [hs, Bool.not_true, Bool.false_and, if_true, if_false]; simp; omega
    | false =>
      cases ht : tr idx with
      | none =>
        simp only [hs, ht, Bool.not_false, Bool.true_and, Option.isNone_none, if_true]
        simp
        omega
      | some e =>
        simp only [hs, ht, Bool.not_false, Bool.true_and, Option.isNone_some,
          Bool.false_eq_true, if_false]
        simp
        omega

theorem sentCount_congr (tr1 tr2 : Nat → Option String) :
    ∀ (rows : List Row) (idx : Nat),
    (∀ p ∈ List.enumFrom idx rows, isSkipped p.2 = false → tr1 p.1 = tr2 p.1) →
    sentCount tr1 idx rows = sentCount tr2 idx rows := by
  intro rows
  induction rows with
  | nil => intro idx h; rfl
  | cons row rows ih =>
    intro idx h
    rw [sentCount_cons, sentCount_cons]
    rw [ih (idx + 1) (fun p hp hsk => h p (by simp [List.enumFrom_cons, hp]) hsk)]
    cases hs : isSkipped row with
    | true => simp [hs]
    | false =>
      have heq := h (idx, row) (by simp [List.enumFrom_cons]) hs
      simp only at heq
      rw [heq]

theorem failedList_congr (cfg : Config) (tr1 tr2 : Nat → Option String) :
    ∀ (rows : List Row) (idx : Nat),
    (∀ p ∈ List.enumFrom idx rows, isSkipped p.2 = false → tr1 p.1 = tr2 p.1) →
    failedList cfg tr1 idx rows = failedList cfg tr2 idx rows := by
  intro rows
  induction rows with
  | nil => intro idx h; rfl
  | cons row rows ih =>
    intro idx h
    rw [failedList_cons, failedList_cons]
    rw [ih (idx + 1) (fun p hp hsk => h p (by simp [List.enumFrom_cons, hp]) hsk)]
    cases hs : isSkipped row with
    | true => simp [hs]
    | false =>
      have heq := h (idx, row) (by simp [List.enumFrom_cons]) hs
      simp only at heq
      rw [heq]

theorem mem_pauseList (total idx i : Nat) (rows : List Row) :
    i ∈ pauseList total idx rows ↔
      ∃ p ∈ List.enumFrom idx rows, p.1 = i ∧ isSkipped p.2 = false ∧ i < total - 1 := by
  simp only [pauseList, List.mem_map, List.mem_filter, Bool.and_eq_true, Bool.not_eq_true,
    decide_eq_true_eq]
  constructor
  · rintro ⟨p, ⟨hp, hsk, hlt⟩, rfl⟩
    exact ⟨p, hp, rfl, by simpa using hsk, hlt⟩
  · rintro ⟨p, hp, rfl, hsk, hlt⟩
    exact ⟨p, ⟨hp, by simpa using hsk, hlt⟩, rfl⟩

/-! ## Claim C5: cancellation -/

/-- Claim C5, amended: the code provides no cancellation: the run is
insensitive to the cancellation signal, and a completed run always holds
one record per input row — a request to stop after row i does not halt
the loop, and the countdown pause never checks a stop flag (the loop
never consults the signal at all). -/
theorem C5_no_cancellation :
    (∀ (cfg : Config) (df : Option (List Row)) (tr : Nat → Option String)
      (s1 s2 : Nat → Bool), runApp cfg df tr s1 = runApp cfg df tr s2) ∧
    (∀ (cfg : Config) (rows : List Row) (tr : Nat → Option String) (stop : Nat → Bool)
      (r : RunResult), renderOk cfg = true → runApp cfg (some rows) tr stop = .finished r →
      reportRecords r = rows.length) := by
  constructor
  · intro cfg df tr s1 s2
    exact runApp_stop_irrelevant cfg df tr s1 s2
  · intro cfg rows tr stop r hr hfin
    unfold runApp at hfin
    split at hfin
    · exact absurd hfin (by simp)
    · dsimp only at hfin
      rw [sendLoopGo_spec cfg tr stop rows.length hr rows 0 emptyResult] at hfin
      simp only [AppOutcome.finished.injEq] at hfin
      rw [← hfin]
      unfold reportRecords emptyResult
      simp only [List.nil_append, List.length_append, Nat.zero_add]
      exact countsTotal cfg tr rows 0

/-- Claim C5, witness: a run over two valid rows with a cancellation
signal raised after row 0 still produces two records. -/
theorem C5_no_cancellation_witness :
    runApp cfgW (some [rowJo, rowJo]) (fun _ => none) (fun i => decide (0 < i)) =
      runApp cfgW (some [rowJo, rowJo]) (fun _ => none) (fun _ => false) ∧
    reportRecords ⟨2, [], [], [1, 2], [0]⟩ = 2 :=
  ⟨C5_no_cancellation.1 cfgW (some [rowJo, rowJo]) (fun _ => none) _ _,
   C5_no_cancellation.2 cfgW [rowJo, rowJo] (fun _ => none) (fun _ => false)
     ⟨2, [], [], [1, 2], [0]⟩ (by decide) (by rfl)⟩

/-- Claim C5, counterexample to the claim as stated: cancellation
requested after processing row 0 of 2 does not halt the run — the
report holds 2 records, not 1, and rows past the request are still
processed. -/
theorem C5_counterexample :
    runApp cfgW (some [rowJo, rowJo]) (fun _ => none) (fun i => decide (0 < i)) =
      .finished ⟨2, [], [], [1, 2], [0]⟩ ∧
    reportRecords ⟨2, [], [], [1, 2], [0]⟩ ≠ 1 := by
  constructor
  · rfl
  · decide

/-! ## Claim C6: validation before the run -/

/-- Claim C6, amended: only missing credentials (email or app password)
and a missing table fail validation before any send, each with a
configuration error and an empty report; an empty-but-present recipient
table passes validation and completes with an empty report and no
error; empty subject or body templates are not validated and do not
prevent the run. -/
theorem C6_validation :
    (∀ (cfg : Config) (df : Option (List Row)) (tr : Nat → Option String)
      (stop : Nat → Bool), (cfg.from_email = "" ∨ cfg.app_password = "") →
      runApp cfg df tr stop = .configError "Please provide your email and app password.") ∧
    (∀ (cfg : Config) (tr : Nat → Option String) (stop : Nat → Bool),
      cfg.from_email ≠ "" → cfg.app_password ≠ "" →
      runApp cfg none tr stop = .configError "Please upload a CSV file with recipients.") ∧
    (∀ (cfg : Config) (tr : Nat → Option String) (stop : Nat → Bool),
      cfg.from_email ≠ "" → cfg.app_password ≠ "" →
      runApp cfg (some []) tr stop = .finished emptyResult) ∧
    (∀ (cfg : Config) (rows : List Row) (tr : Nat → Option String) (stop : Nat → Bool),
      cfg.from_email ≠ "" → cfg.app_password ≠ "" → ∀ msg,
      runApp cfg (some rows) tr stop ≠ .configError msg) := by
  refine ⟨?_, ?_, ?_, ?_⟩
  · intro cfg df tr stop h
    unfold runApp
    rw [if_pos h]
  · intro cfg tr stop h1 h2
    unfold runApp
    rw [if_neg (by simp [h1, h2])]
  · intro cfg tr stop h1 h2
    unfold runApp
    rw [if_neg (by simp [h1, h2])]
    rfl
  · intro cfg rows tr stop h1 h2 msg
    unfold runApp
    rw [if_neg (by simp [h1, h2])]
    dsimp only
    cases h : sendLoopGo cfg tr stop rows.length 0 rows emptyResult with
    | error e => simp
    | ok r => simp

/-- Claim C6, witness: missing credentials and an empty-but-present
table, concretely. -/
theorem C6_validation_witness :
    runApp { cfgW with from_email := "" } (some [rowJo]) (fun _ => none) (fun _ => false) =
      .configError "Please provide your email and app password." ∧
    runApp cfgW (some []) (fun _ => none) (fun _ => false) = .finished emptyResult :=
  ⟨C6_validation.1 { cfgW with from_email := "" } (some [rowJo]) (fun _ => none)
      (fun _ => false) (Or.inl rfl),
   C6_validation.2.2.1 cfgW (fun _ => none) (fun _ => false) (by decide) (by decide)⟩

/-- Claim C6, counterexample to the claim as stated: with empty subject
and body templates the run passes validation and attempts a send (one
row attempted and sent), instead of failing with a configuration error
and zero attempts. -/
theorem C6_counterexample :
    cfgW.subject_tpl = "" ∧ cfgW.body_tpl = "" ∧
    runApp cfgW (some [rowJo]) (fun _ => none) (fun _ => false) =
      .finished ⟨1, [], [], [1], []⟩ :=
  ⟨rfl, rfl, by rfl⟩

/-! ## Claim C7: dispatch counts -/

/-- Claim C7, amended: over N rows of which K have a missing or invalid
email, for every sequence of transport outcomes the completed run
satisfies skipped = K, sent + failed = N - K and
sent + skipped + failed = N( = attempted), and no per-row transport
failure aborts the run — provided the subject and body templates are
well formed; a malformed template raises on the first non-skipped row
and aborts the whole run. -/
theorem C7_dispatch_counts (cfg : Config) (rows : List Row) (tr : Nat → Option String)
    (stop : Nat → Bool) (h1 : cfg.from_email ≠ "") (h2 : cfg.app_password ≠ "")
    (hr : renderOk cfg = true) :
    ∃ r, runApp cfg (some rows) tr stop = .finished r ∧
      r.skippedRows.length = (rows.filter (fun row => isSkipped row)).length ∧
      r.sent + r.failedRows.length =
        rows.length - (rows.filter (fun row => isSkipped row)).length ∧
      r.sent + r.skippedRows.length + r.failedRows.length = rows.length := by
  have hc := countsTotal cfg tr rows 0
  have hsk : (skippedList rows).length = (rows.filter (fun row => isSkipped row)).length := by
    simp [skippedList]
  unfold runApp
  rw [if_neg (by simp [h1, h2])]
  dsimp only
  rw [sendLoopGo_spec cfg tr stop rows.length hr rows 0 emptyResult]
  refine ⟨_, rfl, ?_, ?_, ?_⟩
  · simp only [emptyResult, List.nil_append]
    exact hsk
  · simp only [emptyResult, List.nil_append, Nat.zero_add]
    omega
  · simp only [emptyResult, List.nil_append, Nat.zero_add]
    omega

/-- Claim C7, witness: two rows, one invalid email, transport failing on
the valid row: skipped 1, sent 0, failed 1, attempted 2. -/
theorem C7_dispatch_counts_witness :
    ∃ r, runApp cfgW (some [rowNoMail, rowJo]) (fun _ => some "boom") (fun _ => false) =
        .finished r ∧
      r.skippedRows.length =
        (([rowNoMail, rowJo] : List Row).filter (fun row => isSkipped row)).length ∧
      r.sent + r.failedRows.length = 2 -
        (([rowNoMail, rowJo] : List Row).filter (fun row => isSkipped row)).length ∧
      r.sent + r.skippedRows.length + r.failedRows.length = 2 :=
  C7_dispatch_counts cfgW [rowNoMail, rowJo] (fun _ => some "boom") (fun _ => false)
    (by decide) (by decide) (by decide)

/-- Claim C7, counterexample to the claim as stated: with a malformed
subject template the first non-skipped row raises inside the loop and
the whole run aborts — no report with attempted = N is produced, so the
counts cannot hold for every run. -/
theorem C7_counterexample :
    runApp { cfgW with subject_tpl := "\x7b" } (some [rowJo]) (fun _ => none) (fun _ => false) =
      .crashed "expected closing brace before end of string" := by
  rfl

/-! ## Claim C8: the skip path and pacing -/

/-- Claim C8, amended: a skipped row is recorded with its reason and
makes no transport call (the run outcome is unchanged under any
transport that agrees on the non-skipped row indices), but the skip
path reaches continue before the countdown block, so the inter-message
pause does NOT run after a skipped row: the pause runs exactly after
the non-skipped rows that are not the last row. -/
theorem C8_skip_path (cfg : Config) (rows : List Row) (tr : Nat → Option String)
    (stop : Nat → Bool) (h1 : cfg.from_email ≠ "") (h2 : cfg.app_password ≠ "")
    (hr : renderOk cfg = true) :
    ∃ r, runApp cfg (some rows) tr stop = .finished r ∧
      r.skippedRows = skippedList rows ∧
      r.pauseAfter = pauseList rows.length 0 rows ∧
      (∀ i, i ∈ r.pauseAfter ↔
        ∃ p ∈ List.enumFrom 0 rows, p.1 = i ∧ isSkipped p.2 = false ∧ i < rows.length - 1) ∧
      (∀ tr2, (∀ p ∈ List.enumFrom 0 rows, isSkipped p.2 = false → tr p.1 = tr2 p.1) →
        runApp cfg (some rows) tr stop = runApp cfg (some rows) tr2 stop) := by
  unfold runApp
  rw [if_neg (by simp [h1, h2])]
  dsimp only
  rw [sendLoopGo_spec cfg tr stop rows.length hr rows 0 emptyResult]
  refine ⟨_, rfl, by simp [emptyResult], by simp [emptyResult], ?_, ?_⟩
  · intro i
    simp only [emptyResult, List.nil_append]
    exact mem_pauseList rows.length 0 i rows
  · intro tr2 hagree
    rw [sendLoopGo_spec cfg tr2 stop rows.length hr rows 0 emptyResult]
    rw [sentCount_congr tr tr2 rows 0 hagree, failedList_congr cfg tr tr2 rows 0 hagree]
    rw [if_neg (by simp [h1, h2])]

/-- Claim C8, witness: one skipped then one sendable row; the pause set
is empty (the skipped row pauses nowhere, the sendable row is last). -/
theorem C8_skip_path_witness :
    ∃ r, runApp cfgW (some [rowNoMail, rowJo]) (fun _ => none) (fun _ => false) =
        .finished r ∧
      r.skippedRows = skippedList [rowNoMail, rowJo] ∧
      r.pauseAfter = pauseList 2 0 [rowNoMail, rowJo] ∧
      (∀ i, i ∈ r.pauseAfter ↔
        ∃ p ∈ List.enumFrom 0 [rowNoMail, rowJo],
          p.1 = i ∧ isSkipped p.2 = false ∧ i < 2 - 1) ∧
      (∀ tr2, (∀ p ∈ List.enumFrom 0 [rowNoMail, rowJo],
          isSkipped p.2 = false → (fun _ => none : Nat → Option String) p.1 = tr2 p.1) →
        runApp cfgW (some [rowNoMail, rowJo]) (fun _ => none) (fun _ => false) =
          runApp cfgW (some [rowNoMail, rowJo]) tr2 (fun _ => false)) :=
  C8_skip_path cfgW [rowNoMail, rowJo] (fun _ => none) (fun _ => false)
    (by decide) (by decide) (by decide)

/-- Claim C8, counterexample to the claim as stated: two rows, the
first skipped (blank email) and not the last — yet the pause list is
empty: the countdown does not run after the skipped row. -/
theorem C8_counterexample :
    runApp cfgW (some [rowNoMail, rowJo]) (fun _ => none) (fun _ => false) =
      .finished ⟨1, [[("email", ""), ("name", "Nomail"), ("__reason", "missing/invalid email")]],
        [], [1, 2], []⟩ ∧
    ¬ ((0 : Nat) ∈ ([] : List Nat)) := by
  constructor
  · rfl
  · simp

theorem lookup_setKey_self (k v : String) : ∀ (r : Row),
    List.lookup k (setKey r k v) = some v := by
  intro r
  induction r with
  | nil => rw [setKey, List.lookup_cons, beq_self_eq_true]
  | cons p t ih =>
    obtain ⟨k0, v0⟩ := p
    rw [setKey]
    by_cases h : k0 = k
    · rw [if_pos h, List.lookup_cons, beq_self_eq_true]
    · rw [if_neg h, List.lookup_cons, beq_false_of_ne (fun hc => h hc.symm)]
      exact ih

theorem lookup_setKey_ne {k kp : String} (v : String) (h : kp ≠ k) : ∀ (r : Row),
    List.lookup kp (setKey r k v) = List.lookup kp r := by
  intro r
  induction r with
  | nil => rw [setKey, List.lookup_cons, beq_false_of_ne h]
  | cons p t ih =>
    obtain ⟨k0, v0⟩ := p
    rw [setKey]
    by_cases h0 : k0 = k
    · subst h0
      rw [if_pos rfl, List.lookup_cons, List.lookup_cons, beq_false_of_ne h]
    · rw [if_neg h0, List.lookup_cons, List.lookup_cons]
      by_cases h1 : kp = k0
      · subst h1; rw [beq_self_eq_true]
      · rw [beq_false_of_ne h1]
        exact ih

theorem rowKeys_setKey_absent (k v : String) : ∀ (r : Row), k ∉ rowKeys r →
    rowKeys (setKey r k v) = rowKeys r ++ [k] := by
  intro r
  induction r with
  | nil => intro _; rfl
  | cons p t ih =>
    obtain ⟨k0, v0⟩ := p
    intro hk
    rw [rowKeys, List.map_cons] at hk
    have hk0 : k0 ≠ k := by
      intro hc
      exact (by simp [hc] at hk)
    rw [setKey, if_neg hk0, rowKeys, List.map_cons, rowKeys, List.map_cons, List.cons_append]
    have ht : k ∉ rowKeys t := by
      intro hc
      exact hk (by simp [rowKeys] at hc ⊢; exact Or.inr hc)
    rw [← rowKeys, ← rowKeys, ih ht]

theorem rowKeys_rowClean (row : Row) : rowKeys (rowClean row) = rowKeys row := by
  simp [rowKeys, rowClean]

theorem lookup_rowClean (k : String) : ∀ (row : Row),
    List.lookup k (rowClean row) = (List.lookup k row).map clean_value := by
  intro row
  induction row with
  | nil => rfl
  | cons p t ih =>
    obtain ⟨k0, v0⟩ := p
    rw [rowClean, List.map_cons, List.lookup_cons, List.lookup_cons]
    by_cases h : k = k0
    · subst h; rw [beq_self_eq_true]; rfl
    · rw [beq_false_of_ne h]
      exact ih

theorem lookup_setdefault_of_some {k v : String} (r : Row) (k2 v2 : String)
    (h : List.lookup k r = some v) :
    List.lookup k (setdefault r k2 v2) = some v := by
  by_cases hk : k = k2
  · subst hk
    rw [lookup_setdefault_self, h]
    rfl
  · rw [lookup_setdefault_ne _ _ hk, h]

theorem lookup_applyDefaults_present {k v : String} (cfg : Config) (r : Row)
    (h : List.lookup k r = some v) :
    List.lookup k (applyDefaults cfg r) = some v := by
  unfold applyDefaults
  exact lookup_setdefault_of_some _ _ _ (lookup_setdefault_of_some _ _ _
    (lookup_setdefault_of_some _ _ _ (lookup_setdefault_of_some _ _ _
      (lookup_setdefault_of_some _ _ _ h))))

theorem rowKeys_setdefault (r : Row) (k v : String) :
    rowKeys (setdefault r k v) =
      rowKeys r ++ (if (List.lookup k r).isSome then [] else [k]) := by
  unfold setdefault
  split
  · rw [List.append_nil]
  · rw [rowKeys, List.map_append]
    rfl

theorem rowKeys_applyDefaults (cfg : Config) (r : Row) :
    rowKeys (applyDefaults cfg r) = rowKeys r
      ++ (if (List.lookup "sender" r).isSome then [] else ["sender"])
      ++ (if (List.lookup "cost" r).isSome then [] else ["cost"])
      ++ (if (List.lookup "currency" r).isSome then [] else ["currency"])
      ++ (if (List.lookup "company" r).isSome then [] else ["company"])
      ++ (if (List.lookup "name" r).isSome then [] else ["name"]) := by
  unfold applyDefaults
  rw [rowKeys_setdefault, lookup_setdefault_ne _ _ (by decide),
    lookup_setdefault_ne _ _ (by decide), lookup_setdefault_ne _ _ (by decide),
    lookup_setdefault_ne _ _ (by decide)]
  rw [rowKeys_setdefault, lookup_setdefault_ne _ _ (by decide),
    lookup_setdefault_ne _ _ (by decide), lookup_setdefault_ne _ _ (by decide)]
  rw [rowKeys_setdefault, lookup_setdefault_ne _ _ (by decide),
    lookup_setdefault_ne _ _ (by decide)]
  rw [rowKeys_setdefault, lookup_setdefault_ne _ _ (by decide)]
  rw [rowKeys_setdefault]

theorem lookup_name_applyDefaults (cfg : Config) (r : Row) :
    List.lookup "name" (applyDefaults cfg r) = some ((List.lookup "name" r).getD "") := by
  unfold applyDefaults
  rw [lookup_setdefault_self, lookup_setdefault_ne _ _ (by decide),
    lookup_setdefault_ne _ _ (by decide), lookup_setdefault_ne _ _ (by decide),
    lookup_setdefault_ne _ _ (by decide)]

theorem dropWhile_append_singleton {p : Char → Bool} {c : Char} (h : p c = false) :
    ∀ (A : List Char), List.dropWhile p (A ++ [c]) = List.dropWhile p A ++ [c] := by
  intro A
  induction A with
  | nil => simp [List.dropWhile, h]
  | cons a t ih =>
    rw [List.cons_append, List.dropWhile_cons, List.dropWhile_cons]
    cases hp : p a
    · simp only [Bool.false_eq_true, if_false, List.cons_append]
    · simp only [if_true]
      exact ih

theorem head_not_space_of_dropWhile_fix {p : Char → Bool} {c : Char} {t : List Char}
    (h : List.dropWhile p (c :: t) = c :: t) : p c = false := by
  cases hp : p c
  · rfl
  · rw [List.dropWhile_cons, hp, if_pos rfl] at h
    have hlen := congrArg List.length h
    have hle := (List.dropWhile_sublist (l := t) p).length_le
    simp only [List.length_cons] at hlen
    omega

/-- pyStrip agrees with dropWhile-then-rdropWhile. -/
theorem pyStrip_eq (l : List Char) :
    pyStrip l = List.rdropWhile pyIsSpace (l.dropWhile pyIsSpace) := rfl

theorem pyStrip_idem (l : List Char) : pyStrip (pyStrip l) = pyStrip l := by
  rw [pyStrip_eq, pyStrip_eq]
  have hfix : List.dropWhile pyIsSpace (List.dropWhile pyIsSpace l) =
      List.dropWhile pyIsSpace l := List.dropWhile_idempotent _ _
  set X := List.dropWhile pyIsSpace l with hX
  have hdr : List.dropWhile pyIsSpace (List.rdropWhile pyIsSpace X) =
      List.rdropWhile pyIsSpace X := by
    cases hx : X with
    | nil => rw [List.rdropWhile_nil]; rfl
    | cons c t =>
      have hc : pyIsSpace c = false := head_not_space_of_dropWhile_fix (by rw [← hx, hfix, hx])
      rw [List.rdropWhile, List.reverse_cons, dropWhile_append_singleton hc,
        List.reverse_append, List.reverse_singleton, List.singleton_append,
        List.dropWhile_cons, hc]
      simp
  rw [hdr, List.rdropWhile_idempotent]

theorem mem_pyStrip {c : Char} {l : List Char} (h : c ∈ pyStrip l) : c ∈ l := by
  rw [pyStrip] at h
  rw [List.mem_reverse] at h
  have h2 := (List.dropWhile_sublist _).mem h
  rw [List.mem_reverse] at h2
  exact (List.dropWhile_sublist _).mem h2

theorem map_fix_of_all {f : Char → Char} : ∀ (l : List Char), (∀ c ∈ l, f c = c) →
    l.map f = l := by
  intro l
  induction l with
  | nil => intro _; rfl
  | cons a t ih =>
    intro h
    rw [List.map_cons, h a (by simp), ih (fun c hc => h c (by simp [hc]))]

theorem clean_value_chars (s : String) :
    ∀ c ∈ (clean_value s).data, c ≠ '\xA0' ∧ c ≠ '​' := by
  intro c hc
  unfold clean_value pyStripS at hc
  simp only at hc
  have h2 := mem_pyStrip hc
  rw [List.mem_filter] at h2
  obtain ⟨h3, h4⟩ := h2
  rw [List.mem_map] at h3
  obtain ⟨c0, _, hc0⟩ := h3
  constructor
  · intro hcon
    by_cases h5 : c0 = '\xA0'
    · rw [if_pos h5] at hc0
      rw [← hc0] at hcon
      exact absurd hcon (by decide)
    · rw [if_neg h5] at hc0
      rw [← hc0] at hcon
      exact h5 hcon
  · intro hcon
    rw [hcon] at h4
    simp at h4

theorem clean_value_idem (s : String) : clean_value (clean_value s) = clean_value s := by
  have hch := clean_value_chars s
  have hmap : (clean_value s).data.map (fun c => if c = '\xA0' then ' ' else c) =
      (clean_value s).data :=
    map_fix_of_all _ (fun c hc => by rw [if_neg (hch c hc).1])
  have hfilter : (clean_value s).data.filter (fun c => c ≠ '\u200B') = (clean_value s).data :=
    List.filter_eq_self.mpr (fun c hc => by simp [(hch c hc).2])
  have hstrip : pyStrip ((clean_value s).data) = (clean_value s).data := by
    have hdef : (clean_value s).data =
        pyStrip ((s.data.map (fun c => if c = '\xA0' then ' ' else c)).filter
          (fun c => c ≠ '\u200B')) := rfl
    rw [hdef, pyStrip_idem]
  show String.mk (pyStrip (((clean_value s).data.map
    (fun c => if c = '\xA0' then ' ' else c)).filter (fun c => c ≠ '\u200B'))) = clean_value s
  rw [hmap, hfilter, hstrip]

theorem rowClean_idem (row : Row) : rowClean (rowClean row) = rowClean row := by
  unfold rowClean
  rw [List.map_map]
  apply List.map_congr_left
  intro kv _
  simp [clean_value_idem]

theorem lookup_skipDict (row : Row) (k v : String) (hk : k ≠ "__reason")
    (h : List.lookup k row = some v) :
    List.lookup k (skipDict row) = some (clean_value v) := by
  unfold skipDict
  rw [lookup_setKey_ne _ hk, lookup_rowClean, h]
  rfl

theorem rowKeys_skipDict (row : Row) (h : "__reason" ∉ rowKeys row) :
    rowKeys (skipDict row) = rowKeys row ++ ["__reason"] := by
  unfold skipDict
  rw [rowKeys_setKey_absent _ _ _ (by rw [rowKeys_rowClean]; exact h), rowKeys_rowClean]

theorem lookup_failDict (cfg : Config) (row : Row) (e k v : String) (hk : k ≠ "__reason")
    (h : List.lookup k row = some v) :
    List.lookup k (failDict cfg row e) = some (clean_value v) := by
  unfold failDict
  rw [lookup_setKey_ne _ hk]
  apply lookup_applyDefaults_present
  rw [lookup_rowClean, h]
  rfl

theorem isSome_map_clean (o : Option String) :
    (o.map clean_value).isSome = o.isSome := by
  cases o <;> rfl

/-! ## Claim C9: exporting skipped and failed rows -/

/-- Claim C9, amended: in a completed run the skipped export carries,
for each skipped row, exactly the original row's columns plus one
reason column, each original value preserved exactly (for a sanitized
row, byte for byte); the failed export preserves every original value
the same way, but its column set is the original row's columns, plus
whichever of the five default keys (sender, cost, currency, company,
name) were absent from the row, plus the reason column.  Sanitization
is idempotent, so rows of a table cleaned at upload are their own
sanitized forms. -/
theorem C9_export_roundtrip (cfg : Config) (rows : List Row) (tr : Nat → Option String)
    (stop : Nat → Bool) (h1 : cfg.from_email ≠ "") (h2 : cfg.app_password ≠ "")
    (hr : renderOk cfg = true) :
    ∃ r, runApp cfg (some rows) tr stop = .finished r ∧
      r.skippedRows = skippedList rows ∧ r.failedRows = failedList cfg tr 0 rows ∧
      (∀ row, "__reason" ∉ rowKeys row →
        rowKeys (skipDict row) = rowKeys row ++ ["__reason"]) ∧
      (∀ row k v, k ≠ "__reason" → List.lookup k row = some v → rowClean row = row →
        List.lookup k (skipDict row) = some v) ∧
      (∀ row e, "__reason" ∉ rowKeys row →
        rowKeys (failDict cfg row e) = rowKeys row
          ++ (if (List.lookup "sender" row).isSome then [] else ["sender"])
          ++ (if (List.lookup "cost" row).isSome then [] else ["cost"])
          ++ (if (List.lookup "currency" row).isSome then [] else ["currency"])
          ++ (if (List.lookup "company" row).isSome then [] else ["company"])
          ++ (if (List.lookup "name" row).isSome then [] else ["name"])
          ++ ["__reason"]) ∧
      (∀ row e k v, k ≠ "__reason" → List.lookup k row = some v → rowClean row = row →
        List.lookup k (failDict cfg row e) = some v) ∧
      (∀ row, rowClean (rowClean row) = rowClean row) := by
  unfold runApp
  rw [if_neg (by simp [h1, h2])]
  dsimp only
  rw [sendLoopGo_spec cfg tr stop rows.length hr rows 0 emptyResult]
  refine ⟨_, rfl, by simp [emptyResult], by simp [emptyResult], ?_, ?_, ?_, ?_, ?_⟩
  · intro row hrow
    exact rowKeys_skipDict row hrow
  · intro row k v hk hl hclean
    have h3 := lookup_skipDict row k v hk hl
    have h4 : clean_value v = v := by
      have h5 : List.lookup k (rowClean row) = some v := by rw [hclean]; exact hl
      rw [lookup_rowClean, hl] at h5
      simpa using h5
    rw [h3, h4]
  · intro row e hrow
    unfold failDict
    rw [rowKeys_setKey_absent _ _ _ (by
      intro hmem
      rw [rowKeys_applyDefaults, rowKeys_rowClean] at hmem
      simp only [List.mem_append] at hmem
      rcases hmem with ((((hmem | hmem) | hmem) | hmem) | hmem) | hmem
      · exact hrow hmem
      · revert hmem; split <;> simp
      · revert hmem; split <;> simp
      · revert hmem; split <;> simp
      · revert hmem; split <;> simp
      · revert hmem; split <;> simp)]
    rw [rowKeys_applyDefaults, rowKeys_rowClean]
    rw [lookup_rowClean, lookup_rowClean, lookup_rowClean, lookup_rowClean, lookup_rowClean]
    rw [isSome_map_clean, isSome_map_clean, isSome_map_clean, isSome_map_clean,
      isSome_map_clean]
  · intro row e k v hk hl hclean
    have h3 := lookup_failDict cfg row e k v hk hl
    have h4 : clean_value v = v := by
      have h5 : List.lookup k (rowClean row) = some v := by rw [hclean]; exact hl
      rw [lookup_rowClean, hl] at h5
      simpa using h5
    rw [h3, h4]
  · intro row
    exact rowClean_idem row

/-- Claim C9, witness: the skipped export of a two-column row has
exactly those columns plus the reason; a failed export of a two-column
row gains the five default columns; values are preserved. -/
theorem C9_export_roundtrip_witness :
    rowKeys (skipDict rowNoMail) = ["email", "name", "__reason"] ∧
    rowKeys (failDict cfgW rowJo "boom") =
      ["email", "name", "sender", "cost", "currency", "company", "__reason"] ∧
    List.lookup "name" (failDict cfgW rowJo "boom") = some "Jo Doe" := by
  obtain ⟨r, hrun, hsk, hfl, hskKeys, hskVal, hflKeys, hflVal, hidem⟩ :=
    C9_export_roundtrip cfgW [rowJo] (fun _ => some "boom") (fun _ => false)
      (by decide) (by decide) (by decide)
  refine ⟨?_, ?_, ?_⟩
  · exact (hskKeys rowNoMail (by decide)).trans (by decide)
  · exact (hflKeys rowJo "boom" (by decide)).trans (by decide)
  · exact hflVal rowJo "boom" "name" "Jo Doe" (by decide) (by decide) (by decide)

/-- Claim C9, counterexample to the claim as stated: a failed row with
only email and name columns is exported with five extra default columns,
so the exported column set is not the original columns plus one reason
column. -/
theorem C9_counterexample :
    runApp cfgW (some [rowJo]) (fun _ => some "boom") (fun _ => false) =
      .finished ⟨0, [],
        [[("email", "john.doe@example.com"), ("name", "Jo Doe"), ("sender", "Alice"),
          ("cost", "1000.0"), ("currency", "USD"), ("company", ""), ("__reason", "boom")]],
        [1], []⟩ ∧
    rowKeys [("email", "john.doe@example.com"), ("name", "Jo Doe"), ("sender", "Alice"),
        ("cost", "1000.0"), ("currency", "USD"), ("company", ""), ("__reason", "boom")] ≠
      rowKeys rowJo ++ ["__reason"] := by
  constructor
  · rfl
  · decide

/-! ## Claim C10: full name in subject, first name in body -/

/-- Claim C10: for every sendable row the subject template is rendered
against the merged row, whose name key holds the full merged name,
while the body template is rendered against the same row with name
rebound to the first whitespace-delimited token of that name — the
empty string when the name is blank.  Rendering the single placeholder
for name as the subject yields the full name; as the body it yields
the first token. -/
theorem C10_subject_full_body_first (cfg : Config) (row rowd : Row)
    (recip subj body : String)
    (hpr : processRow cfg row = .ok (.sendRow rowd recip subj body)) :
    rowd = applyDefaults cfg (rowClean row) ∧
    ∃ full, List.lookup "name" rowd = some full ∧
      safe_format cfg.subject_tpl rowd = .ok subj ∧
      safe_format cfg.body_tpl (setKey rowd "name" (firstNameOf full)) = .ok body ∧
      List.lookup "name" (setKey rowd "name" (firstNameOf full)) = some (firstNameOf full) ∧
      (pyStrip full.data = [] → firstNameOf full = "") ∧
      (cfg.subject_tpl = String.mk ('{' :: "name".data ++ ['}']) → subj = full) ∧
      (cfg.body_tpl = String.mk ('{' :: "name".data ++ ['}']) → body = firstNameOf full) := by
  unfold processRow at hpr
  dsimp only at hpr
  cases hc : clean_email_address ((List.lookup "email" (rowClean row)).getD "") with
  | none => rw [hc] at hpr; simp at hpr
  | some recip0 =>
    rw [hc] at hpr
    dsimp only at hpr
    cases hsub : safe_format cfg.subject_tpl (applyDefaults cfg (rowClean row)) with
    | error e => rw [hsub] at hpr; simp at hpr
    | ok subj0 =>
      rw [hsub] at hpr
      cases hbod : safe_format cfg.body_tpl
          (setKey (applyDefaults cfg (rowClean row)) "name"
            (firstNameOf ((List.lookup "name" (applyDefaults cfg (rowClean row))).getD ""))) with
      | error e => rw [hbod] at hpr; simp at hpr
      | ok body0 =>
        rw [hbod] at hpr
        simp only [Except.ok.injEq, RowStep.sendRow.injEq] at hpr
        obtain ⟨hrowd, hrecip, hsubj0, hbody0⟩ := hpr
        subst hrowd
        subst hsubj0
        subst hbody0
        have hfull := lookup_name_applyDefaults cfg (rowClean row)
        rw [show (List.lookup "name" (applyDefaults cfg (rowClean row))).getD "" =
            (List.lookup "name" (rowClean row)).getD "" by
          rw [lookup_name_applyDefaults]
          rfl] at hbod
        refine ⟨rfl, (List.lookup "name" (rowClean row)).getD "", hfull, hsub, hbod,
          lookup_setKey_self _ _ _, ?_, ?_, ?_⟩
        · intro hblank
          rw [firstNameOf, if_neg (by simp [hblank])]
        · intro htpl
          rw [htpl, render_single_placeholder "name" _ (by decide), hfull] at hsub
          simpa using hsub.symm
        · intro htpl
          rw [htpl, render_single_placeholder "name" _ (by decide),
            lookup_setKey_self _ _ _] at hbod
          simpa using hbod.symm

/-- Claim C10, witness: with the name placeholder as both subject and
body, a row named Jo Doe renders subject Jo Doe and body Jo. -/
theorem C10_subject_full_body_first_witness :
    rowdJo = applyDefaults cfgName (rowClean rowJo) ∧
    ("Jo Doe" : String) = "Jo Doe" ∧ ("Jo" : String) = firstNameOf "Jo Doe" := by
  have h := C10_subject_full_body_first cfgName rowJo rowdJo "john.doe@example.com"
    "Jo Doe" "Jo" (by rfl)
  obtain ⟨hrowd, full, hfull, hsub, hbod, hset, hblank, hsubPh, hbodPh⟩ := h
  have hfulleq : full = "Jo Doe" := by
    rw [hrowd] at hfull
    have : List.lookup "name" (applyDefaults cfgName (rowClean rowJo)) = some "Jo Doe" := by
      decide
    rw [this] at hfull
    simpa using hfull.symm
  refine ⟨hrowd, rfl, ?_⟩
  have h2 := hbodPh (by rfl)
  rw [hfulleq] at h2
  exact h2

theorem subR_refl (a : List Char) : subR a a := fun _ h => h

theorem subR_trans {a b c : List Char} (h1 : subR a b) (h2 : subR b c) : subR a c :=
  fun x hx => h2 x (h1 x hx)

theorem subR_tail (c : Char) (cs : List Char) : subR cs (c :: cs) :=
  fun x hx => List.mem_cons_of_mem _ hx

theorem subC_nil (r : List Char) : subC [] r := fun _ h => absurd h (List.not_mem_nil _)

theorem subC_of_subR {a r : List Char} (h : subR a r) : subC a r :=
  fun c hc => Or.inl (h c hc)

theorem subC_append {a b r : List Char} (ha : subC a r) (hb : subC b r) : subC (a ++ b) r := by
  intro c hc
  rcases List.mem_append.mp hc with h | h
  · exact ha c h
  · exact hb c h

theorem subC_cons {c : Char} {t r : List Char} (hc : c ∈ r ∨ c ∈ extrasChars)
    (ht : subC t r) : subC (c :: t) r := by
  intro x hx
  rcases List.mem_cons.mp hx with h | h
  · rw [h]; exact hc
  · exact ht x h

theorem subC_mono {a r r2 : List Char} (h : subC a r) (hr : subR r r2) : subC a r2 := by
  intro c hc
  rcases h c hc with h2 | h2
  · exact Or.inl (hr c h2)
  · exact Or.inr h2

theorem subC_trans_subR {a r : List Char} {r2 : List Char} (h : subC a r2) (hr : subR r2 r) :
    subC a r := subC_mono h hr

/-- Conservation for getatom: the atom's characters are read from the
input, and the remaining input is a subset of the original. -/
theorem getatom_cons : ∀ (fuel : Nat) (ends : List Char) (st : PState),
    subC (getatom fuel ends st).1 st.rest ∧ subR (getatom fuel ends st).2.rest st.rest := by
  intro fuel
  induction fuel with
  | zero => intro ends st; exact ⟨subC_nil _, subR_refl _⟩
  | succ fuel ih =>
    intro ends st
    rw [getatom]
    cases hrest : st.rest with
    | nil => exact ⟨subC_nil _, by rw [hrest]; exact subR_refl _⟩
    | cons c cs =>
      dsimp only
      by_cases hc : c ∈ ends
      · rw [if_pos hc]
        exact ⟨subC_nil _, by rw [hrest]; exact subR_refl _⟩
      · rw [if_neg hc]
        dsimp only
        obtain ⟨h1, h2⟩ := ih ends { st with rest := cs }
        constructor
        · exact subC_cons (Or.inl (by simp)) (subC_mono h1 (subR_tail c cs))
        · exact subR_trans h2 (subR_tail c cs)

/-- Conservation for the getdelimited pair. -/
theorem getdelimited_cons : ∀ (fuel : Nat),
    (∀ (endchars : List Char) (ac q : Bool) (st : PState),
      subC (getdelimitedLoop fuel endchars ac q st).1 st.rest ∧
      subR (getdelimitedLoop fuel endchars ac q st).2.rest st.rest) ∧
    (∀ (b : Char) (e : List Char) (a : Bool) (st : PState),
      subC (getdelimited fuel b e a st).1 st.rest ∧
      subR (getdelimited fuel b e a st).2.rest st.rest) := by
  intro fuel
  induction fuel with
  | zero =>
    exact ⟨fun _ _ _ st => ⟨subC_nil _, subR_refl _⟩,
      fun _ _ _ st => ⟨subC_nil _, subR_refl _⟩⟩
  | succ fuel ih =>
    obtain ⟨ihLoop, ihDel⟩ := ih
    constructor
    · intro endchars ac q st
      rw [getdelimitedLoop]
      cases hrest : st.rest with
      | nil => exact ⟨subC_nil _, by rw [hrest]; exact subR_refl _⟩
      | cons c cs =>
        dsimp only
        have htail : subR cs (c :: cs) := subR_tail c cs
        have hcmem : c ∈ c :: cs := by simp
        by_cases hq : q = true
        · rw [if_pos hq]
          dsimp only
          obtain ⟨h1, h2⟩ := ihLoop endchars ac false { st with rest := cs }
          exact ⟨subC_cons (Or.inl hcmem) (subC_mono h1 htail), subR_trans h2 htail⟩
        · rw [if_neg hq]
          by_cases hce : c ∈ endchars
          · rw [if_pos hce]
            exact ⟨subC_nil _, htail⟩
          · rw [if_neg hce]
            by_cases hac : ac = true ∧ c = '('
            · rw [if_pos hac]
              dsimp only
              obtain ⟨h1, h2⟩ := ihDel '(' [')', '\r'] true st
              obtain ⟨h3, h4⟩ :=
                ihLoop endchars ac false (getdelimited fuel '(' [')', '\r'] true st).2
              rw [hrest] at h1 h2
              exact ⟨subC_append h1 (subC_mono h3 h2), subR_trans h4 h2⟩
            · rw [if_neg hac]
              by_cases hbs : c = '\\'
              · rw [if_pos hbs]
                obtain ⟨h1, h2⟩ := ihLoop endchars ac true { st with rest := cs }
                exact ⟨subC_mono h1 htail, subR_trans h2 htail⟩
              · rw [if_neg hbs]
                dsimp only
                obtain ⟨h1, h2⟩ := ihLoop endchars ac false { st with rest := cs }
                exact ⟨subC_cons (Or.inl hcmem) (subC_mono h1 htail), subR_trans h2 htail⟩
    · intro b e a st
      rw [getdelimited]
      cases hrest : st.rest with
      | nil => exact ⟨subC_nil _, by rw [hrest]; exact subR_refl _⟩
      | cons c cs =>
        dsimp only
        have htail : subR cs (c :: cs) := subR_tail c cs
        by_cases hc : c = b
        · rw [if_pos hc]
          obtain ⟨h1, h2⟩ := ihLoop e a false { st with rest := cs }
          exact ⟨subC_mono h1 htail, subR_trans h2 htail⟩
        · rw [if_neg hc]
          exact ⟨subC_nil _, by rw [hrest]; exact subR_refl _⟩

theorem getcomment_cons (fuel : Nat) (st : PState) :
    subC (getcomment fuel st).1 st.rest ∧ subR (getcomment fuel st).2.rest st.rest :=
  (getdelimited_cons fuel).2 '(' [')', '\r'] true st

theorem getquote_cons (fuel : Nat) (st : PState) :
    subC (getquote fuel st).1 st.rest ∧ subR (getquote fuel st).2.rest st.rest :=
  (getdelimited_cons fuel).2 '"' ['"', '\r'] false st

theorem getdomainliteral_cons (fuel : Nat) (st : PState) :
    subC (getdomainliteral fuel st).1 st.rest ∧
    subR (getdomainliteral fuel st).2.rest st.rest := by
  obtain ⟨h1, h2⟩ := (getdelimited_cons fuel).2 '[' [']', '\r'] false st
  unfold getdomainliteral
  refine ⟨?_, h2⟩
  refine subC_cons (Or.inr (by decide)) (subC_append h1 ?_)
  intro c hc
  rw [List.mem_singleton] at hc
  rw [hc]
  exact Or.inr (by decide)

theorem gotonext_cons : ∀ (fuel : Nat) (st : PState),
    subC (gotonext fuel st).1 st.rest ∧ subR (gotonext fuel st).2.rest st.rest := by
  intro fuel
  induction fuel with
  | zero => intro st; exact ⟨subC_nil _, subR_refl _⟩
  | succ fuel ih =>
    intro st
    rw [gotonext]
    cases hrest : st.rest with
    | nil => exact ⟨subC_nil _, by rw [hrest]; exact subR_refl _⟩
    | cons c cs =>
      dsimp only
      have htail : subR cs (c :: cs) := subR_tail c cs
      have hcmem : c ∈ c :: cs := by simp
      by_cases h1 : c ∈ lwsChars ++ crChars
      · rw [if_pos h1]
        dsimp only
        obtain ⟨h2, h3⟩ := ih { st with rest := cs }
        constructor
        · by_cases h4 : c ∈ crChars
          · rw [if_pos h4]
            exact subC_mono h2 htail
          · rw [if_neg h4]
            exact subC_cons (Or.inl hcmem) (subC_mono h2 htail)
        · exact subR_trans h3 htail
      · rw [if_neg h1]
        by_cases h5 : c = '('
        · rw [if_pos h5]
          obtain ⟨hc1, hc2⟩ := getcomment_cons fuel st
          obtain ⟨h6, h7⟩ := ih { (getcomment fuel st).2 with
            comments := (getcomment fuel st).2.comments ++ [(getcomment fuel st).1] }
          rw [hrest] at hc2
          exact ⟨subC_mono h6 hc2, subR_trans h7 hc2⟩
        · rw [if_neg h5]
          exact ⟨subC_nil _, by rw [hrest]; exact subR_refl _⟩

theorem getphraselist_cons : ∀ (fuel : Nat) (st : PState),
    (∀ p ∈ (getphraselist fuel st).1, subC p st.rest) ∧
    subR (getphraselist fuel st).2.rest st.rest := by
  intro fuel
  induction fuel with
  | zero => intro st; exact ⟨fun p hp => absurd hp (List.not_mem_nil _), subR_refl _⟩
  | succ fuel ih =>
    intro st
    rw [getphraselist]
    cases hrest : st.rest with
    | nil =>
      exact ⟨fun p hp => absurd hp (List.not_mem_nil _), by rw [hrest]; exact subR_refl _⟩
    | cons c cs =>
      dsimp only
      have htail : subR cs (c :: cs) := subR_tail c cs
      by_cases h1 : c ∈ fwsChars
      · rw [if_pos h1]
        obtain ⟨h2, h3⟩ := ih { st with rest := cs }
        exact ⟨fun p hp => subC_mono (h2 p hp) htail, subR_trans h3 htail⟩
      · rw [if_neg h1]
        by_cases h2 : c = '"'
        · rw [if_pos h2]
          obtain ⟨hq1, hq2⟩ := getquote_cons fuel st
          obtain ⟨h3, h4⟩ := ih (getquote fuel st).2
          rw [hrest] at hq1 hq2
          constructor
          · intro p hp
            rcases List.mem_cons.mp hp with h5 | h5
            · rw [h5]; exact hq1
            · exact subC_mono (h3 p h5) hq2
          · exact subR_trans h4 hq2
        · rw [if_neg h2]
          by_cases h3 : c = '('
          · rw [if_pos h3]
            obtain ⟨hc1, hc2⟩ := getcomment_cons fuel st
            obtain ⟨h4, h5⟩ := ih { (getcomment fuel st).2 with
              comments := (getcomment fuel st).2.comments ++ [(getcomment fuel st).1] }
            rw [hrest] at hc2
            exact ⟨fun p hp => subC_mono (h4 p hp) hc2, subR_trans h5 hc2⟩
          · rw [if_neg h3]
            by_cases h4 : c ∈ phraseends
            · rw [if_pos h4]
              exact ⟨fun p hp => absurd hp (List.not_mem_nil _),
                by rw [hrest]; exact subR_refl _⟩
            · rw [if_neg h4]
              obtain ⟨ha1, ha2⟩ := getatom_cons fuel phraseends st
              obtain ⟨h5, h6⟩ := ih (getatom fuel phraseends st).2
              rw [hrest] at ha1 ha2
              constructor
              · intro p hp
                rcases List.mem_cons.mp hp with h7 | h7
                · rw [h7]; exact ha1
                · exact subC_mono (h5 p h7) ha2
              · exact subR_trans h6 ha2

theorem getdomainLoop_cons : ∀ (fuel : Nat) (acc : List Char) (st : PState),
    (∀ c ∈ (getdomainLoop fuel acc st).1, c ∈ acc ∨ c ∈ st.rest ∨ c ∈ extrasChars) ∧
    subR (getdomainLoop fuel acc st).2.rest st.rest := by
  intro fuel
  induction fuel with
  | zero => intro acc st; exact ⟨fun c hc => Or.inl hc, subR_refl _⟩
  | succ fuel ih =>
    intro acc st
    rw [getdomainLoop]
    cases hrest : st.rest with
    | nil => exact ⟨fun c hc => Or.inl hc, by rw [hrest]; exact subR_refl _⟩
    | cons c cs =>
      dsimp only
      have htail : subR cs (c :: cs) := subR_tail c cs
      have hstep : ∀ (acc2 : List Char) (st2 : PState), subR st2.rest (c :: cs) →
          (∀ c2 ∈ acc2, c2 ∈ acc ∨ c2 ∈ c :: cs ∨ c2 ∈ extrasChars) →
          (∀ c2 ∈ (getdomainLoop fuel acc2 st2).1, c2 ∈ acc ∨ c2 ∈ c :: cs ∨ c2 ∈ extrasChars) ∧
          subR (getdomainLoop fuel acc2 st2).2.rest (c :: cs) := by
        intro acc2 st2 hsub hacc2
        obtain ⟨h1, h2⟩ := ih acc2 st2
        constructor
        · intro c2 hc2
          rcases h1 c2 hc2 with h3 | h3 | h3
          · exact hacc2 c2 h3
          · exact Or.inr (Or.inl (hsub c2 h3))
          · exact Or.inr (Or.inr h3)
        · exact subR_trans h2 hsub
      by_cases h1 : c ∈ lwsChars
      · rw [if_pos h1]
        exact hstep acc { st with rest := cs } htail (fun c2 h => Or.inl h)
      · rw [if_neg h1]
        by_cases h2 : c = '('
        · rw [if_pos h2]
          obtain ⟨hc1, hc2⟩ := getcomment_cons fuel st
          rw [hrest] at hc2
          obtain ⟨h3, h4⟩ := ih acc { (getcomment fuel st).2 with
            comments := (getcomment fuel st).2.comments ++ [(getcomment fuel st).1] }
          constructor
          · intro c2 h5
            rcases h3 c2 h5 with h6 | h6 | h6
            · exact Or.inl h6
            · exact Or.inr (Or.inl (hc2 c2 h6))
            · exact Or.inr (Or.inr h6)
          · exact subR_trans h4 hc2
        · rw [if_neg h2]
          by_cases h3 : c = '['
          · rw [if_pos h3]
            obtain ⟨hd1, hd2⟩ := getdomainliteral_cons fuel st
            rw [hrest] at hd1 hd2
            refine hstep (acc ++ (getdomainliteral fuel st).1) (getdomainliteral fuel st).2
              hd2 ?_
            intro c2 h4
            rcases List.mem_append.mp h4 with h5 | h5
            · exact Or.inl h5
            · rcases hd1 c2 h5 with h6 | h6
              · exact Or.inr (Or.inl h6)
              · exact Or.inr (Or.inr h6)
          · rw [if_neg h3]
            by_cases h4 : c = '.'
            · rw [if_pos h4]
              refine hstep (acc ++ ['.']) { st with rest := cs } htail ?_
              intro c2 h5
              rcases List.mem_append.mp h5 with h6 | h6
              · exact Or.inl h6
              · rw [List.mem_singleton] at h6
                rw [h6]
                exact Or.inr (Or.inr (by decide))
            · rw [if_neg h4]
              by_cases h5 : c = '@'
              · rw [if_pos h5]
                exact ⟨fun c2 hc2 => absurd hc2 (List.not_mem_nil _),
                  by rw [hrest]; exact subR_refl _⟩
              · rw [if_neg h5]
                by_cases h6 : c ∈ atomends
                · rw [if_pos h6]
                  exact ⟨fun c2 hc2 => Or.inl hc2, by rw [hrest]; exact subR_refl _⟩
                · rw [if_neg h6]
                  obtain ⟨ha1, ha2⟩ := getatom_cons fuel atomends st
                  rw [hrest] at ha1 ha2
                  refine hstep (acc ++ (getatom fuel atomends st).1)
                    (getatom fuel atomends st).2 ha2 ?_
                  intro c2 h7
                  rcases List.mem_append.mp h7 with h8 | h8
                  · exact Or.inl h8
                  · rcases ha1 c2 h8 with h9 | h9
                    · exact Or.inr (Or.inl h9)
                    · exact Or.inr (Or.inr h9)

theorem getdomain_cons (fuel : Nat) (st : PState) :
    subC (getdomain fuel st).1 st.rest ∧ subR (getdomain fuel st).2.rest st.rest := by
  obtain ⟨h1, h2⟩ := getdomainLoop_cons fuel [] st
  refine ⟨?_, h2⟩
  intro c hc
  rcases h1 c hc with h3 | h3 | h3
  · exact absurd h3 (List.not_mem_nil _)
  · exact Or.inl h3
  · exact Or.inr h3

theorem pyQuote_chars {c : Char} {l : List Char} (h : c ∈ pyQuote l) :
    c ∈ l ∨ c = '\\' := by
  unfold pyQuote at h
  rw [List.mem_flatMap] at h
  obtain ⟨a, ha, hc⟩ := h
  by_cases h1 : a = '\\'
  · rw [if_pos h1] at hc
    rcases List.mem_cons.mp hc with h2 | h2
    · exact Or.inr h2
    · rw [List.mem_singleton] at h2
      exact Or.inr h2
  · rw [if_neg h1] at hc
    by_cases h2 : a = '"'
    · rw [if_pos h2] at hc
      rcases List.mem_cons.mp hc with h3 | h3
      · exact Or.inr h3
      · rw [List.mem_singleton] at h3
        rw [h3, ← h2]
        exact Or.inl ha
    · rw [if_neg h2] at hc
      rw [List.mem_singleton] at hc
      rw [hc]
      exact Or.inl ha

theorem popBlankLast_sub {l : List Char} {acc : List (List Char)}
    (h : l ∈ popBlankLast acc) : l ∈ acc := by
  unfold popBlankLast at h
  cases hl : acc.getLast? with
  | none => rw [hl] at h; exact h
  | some x =>
    rw [hl] at h
    dsimp only at h
    by_cases h2 : pyStrip x = []
    · rw [if_pos h2] at h
      exact List.dropLast_subset acc h
    · rw [if_neg h2] at h
      exact h

theorem subR_tail_self (l : List Char) : subR l.tail l := by
  cases l with
  | nil => exact subR_refl _
  | cons c cs => exact subR_tail c cs

theorem getaddrspecLoop_cons : ∀ (fuel : Nat) (acc : List (List Char)) (st : PState),
    (∀ l ∈ (getaddrspecLoop fuel acc st).1, ∀ c ∈ l,
      (∃ l0 ∈ acc, c ∈ l0) ∨ c ∈ st.rest ∨ c ∈ extrasChars) ∧
    subR (getaddrspecLoop fuel acc st).2.rest st.rest := by
  intro fuel
  induction fuel with
  | zero => intro acc st; exact ⟨fun l hl c hc => Or.inl ⟨l, hl, hc⟩, subR_refl _⟩
  | succ fuel ih =>
    intro acc st
    rw [getaddrspecLoop]
    cases hrest : st.rest with
    | nil => exact ⟨fun l hl c hc => Or.inl ⟨l, hl, hc⟩, by rw [hrest]; exact subR_refl _⟩
    | cons c cs =>
      dsimp only
      have htail : subR cs (c :: cs) := subR_tail c cs
      have hstep : ∀ (acc2 : List (List Char)) (st2 : PState), subR st2.rest (c :: cs) →
          (∀ l ∈ acc2, ∀ c2 ∈ l, (∃ l0 ∈ acc, c2 ∈ l0) ∨ c2 ∈ c :: cs ∨ c2 ∈ extrasChars) →
          (∀ l ∈ (getaddrspecLoop fuel acc2 st2).1, ∀ c2 ∈ l,
            (∃ l0 ∈ acc, c2 ∈ l0) ∨ c2 ∈ c :: cs ∨ c2 ∈ extrasChars) ∧
          subR (getaddrspecLoop fuel acc2 st2).2.rest (c :: cs) := by
        intro acc2 st2 hsub hacc2
        obtain ⟨h1, h2⟩ := ih acc2 st2
        constructor
        · intro l hl c2 hc2
          rcases h1 l hl c2 hc2 with h3 | h3 | h3
          · obtain ⟨l0, hl0, hcl0⟩ := h3
            exact hacc2 l0 hl0 c2 hcl0
          · exact Or.inr (Or.inl (hsub c2 h3))
          · exact Or.inr (Or.inr h3)
        · exact subR_trans h2 hsub
      have haccP : ∀ l ∈ popBlankLast acc, ∀ c2 ∈ l,
          (∃ l0 ∈ acc, c2 ∈ l0) ∨ c2 ∈ c :: cs ∨ c2 ∈ extrasChars :=
        fun l hl c2 hc2 => Or.inl ⟨l, popBlankLast_sub hl, hc2⟩
      by_cases h1 : c = '.'
      · rw [if_pos h1]
        obtain ⟨hw1, hw2⟩ := gotonext_cons fuel { st with rest := cs }
        refine hstep _ _ (subR_trans hw2 htail) ?_
        intro l hl c2 hc2
        rcases List.mem_append.mp hl with h2 | h2
        · exact haccP l h2 c2 hc2
        · rw [List.mem_singleton] at h2
          rw [h2] at hc2
          rw [List.mem_singleton] at hc2
          rw [hc2]
          exact Or.inr (Or.inr (by decide))
      · rw [if_neg h1]
        by_cases h2 : c = '"'
        · rw [if_pos h2]
          obtain ⟨hq1, hq2⟩ := getquote_cons fuel st
          rw [hrest] at hq1 hq2
          obtain ⟨hw1, hw2⟩ := gotonext_cons fuel (getquote fuel st).2
          have helem : ∀ c2 ∈ ['"'] ++ pyQuote (getquote fuel st).1 ++ ['"'],
              (∃ l0 ∈ acc, c2 ∈ l0) ∨ c2 ∈ c :: cs ∨ c2 ∈ extrasChars := by
            intro c2 hc2
            rcases List.mem_append.mp hc2 with h3 | h3
            · rcases List.mem_append.mp h3 with h4 | h4
              · rw [List.mem_singleton] at h4
                rw [h4]
                exact Or.inr (Or.inr (by decide))
              · rcases pyQuote_chars h4 with h5 | h5
                · rcases hq1 c2 h5 with h6 | h6
                  · exact Or.inr (Or.inl h6)
                  · exact Or.inr (Or.inr h6)
                · rw [h5]
                  exact Or.inr (Or.inr (by decide))
            · rw [List.mem_singleton] at h3
              rw [h3]
              exact Or.inr (Or.inr (by decide))
          have hws : ∀ c2 ∈ (gotonext fuel (getquote fuel st).2).1,
              c2 ∈ c :: cs ∨ c2 ∈ extrasChars := by
            intro c2 hc2
            rcases hw1 c2 hc2 with h3 | h3
            · exact Or.inl (hq2 c2 h3)
            · exact Or.inr h3
          refine hstep _ _ (subR_trans hw2 hq2) ?_
          intro l hl c2 hc2
          by_cases h3 : (gotonext fuel (getquote fuel st).2).1 ≠ []
          · rw [if_pos h3] at hl
            rcases List.mem_append.mp hl with h4 | h4
            · rcases List.mem_append.mp h4 with h5 | h5
              · exact Or.inl ⟨l, h5, hc2⟩
              · rw [List.mem_singleton] at h5
                rw [h5] at hc2
                exact helem c2 hc2
            · rw [List.mem_singleton] at h4
              rw [h4] at hc2
              rcases hws c2 hc2 with h5 | h5
              · exact Or.inr (Or.inl h5)
              · exact Or.inr (Or.inr h5)
          · rw [if_neg h3] at hl
            rcases List.mem_append.mp hl with h4 | h4
            · exact Or.inl ⟨l, h4, hc2⟩
            · rw [List.mem_singleton] at h4
              rw [h4] at hc2
              exact helem c2 hc2
        · rw [if_neg h2]
          by_cases h3 : c ∈ atomends
          · rw [if_pos h3]
            exact ⟨fun l hl c2 hc2 => Or.inl ⟨l, popBlankLast_sub hl, hc2⟩,
              by rw [hrest]; exact subR_refl _⟩
          · rw [if_neg h3]
            obtain ⟨ha1, ha2⟩ := getatom_cons fuel atomends st
            rw [hrest] at ha1 ha2
            obtain ⟨hw1, hw2⟩ := gotonext_cons fuel (getatom fuel atomends st).2
            have hws : ∀ c2 ∈ (gotonext fuel (getatom fuel atomends st).2).1,
                c2 ∈ c :: cs ∨ c2 ∈ extrasChars := by
              intro c2 hc2
              rcases hw1 c2 hc2 with h4 | h4
              · exact Or.inl (ha2 c2 h4)
              · exact Or.inr h4
            refine hstep _ _ (subR_trans hw2 ha2) ?_
            intro l hl c2 hc2
            by_cases h4 : (gotonext fuel (getatom fuel atomends st).2).1 ≠ []
            · rw [if_pos h4] at hl
              rcases List.mem_append.mp hl with h5 | h5
              · rcases List.mem_append.mp h5 with h6 | h6
                · exact Or.inl ⟨l, h6, hc2⟩
                · rw [List.mem_singleton] at h6
                  rw [h6] at hc2
                  rcases ha1 c2 hc2 with h7 | h7
                  · exact Or.inr (Or.inl h7)
                  · exact Or.inr (Or.inr h7)
              · rw [List.mem_singleton] at h5
                rw [h5] at hc2
                rcases hws c2 hc2 with h6 | h6
                · exact Or.inr (Or.inl h6)
                · exact Or.inr (Or.inr h6)
            · rw [if_neg h4] at hl
              rcases List.mem_append.mp hl with h5 | h5
              · exact Or.inl ⟨l, h5, hc2⟩
              · rw [List.mem_singleton] at h5
                rw [h5] at hc2
                rcases ha1 c2 hc2 with h6 | h6
                · exact Or.inr (Or.inl h6)
                · exact Or.inr (Or.inr h6)

theorem getaddrspec_cons (fuel : Nat) (st : PState) :
    subC (getaddrspec fuel st).1 st.rest ∧ subR (getaddrspec fuel st).2.rest st.rest := by
  unfold getaddrspec
  dsimp only
  obtain ⟨hw1, hw2⟩ := gotonext_cons fuel st
  obtain ⟨hl1, hl2⟩ := getaddrspecLoop_cons fuel [] (gotonext fuel st).2
  have hflat : subC (getaddrspecLoop fuel [] (gotonext fuel st).2).1.flatten st.rest := by
    intro c hc
    rw [List.mem_flatten] at hc
    obtain ⟨l, hl, hc2⟩ := hc
    rcases hl1 l hl c hc2 with h1 | h1 | h1
    · obtain ⟨l0, hl0, _⟩ := h1
      exact absurd hl0 (List.not_mem_nil _)
    · exact Or.inl (hw2 c h1)
    · exact Or.inr h1
  have hrest2 : subR (getaddrspecLoop fuel [] (gotonext fuel st).2).2.rest st.rest :=
    subR_trans hl2 hw2
  cases hr : (getaddrspecLoop fuel [] (gotonext fuel st).2).2.rest with
  | nil => exact ⟨hflat, hrest2⟩
  | cons c2 cs2 =>
    dsimp only
    by_cases hat : c2 = '@'
    · rw [if_pos hat]
      have hcs2 : subR cs2 st.rest := by
        intro x hx
        exact hrest2 x (by rw [hr]; exact List.mem_cons_of_mem _ hx)
      obtain ⟨hw3, hw4⟩ := gotonext_cons fuel
        { (getaddrspecLoop fuel [] (gotonext fuel st).2).2 with rest := cs2 }
      obtain ⟨hd1, hd2⟩ := getdomain_cons fuel
        (gotonext fuel { (getaddrspecLoop fuel [] (gotonext fuel st).2).2 with rest := cs2 }).2
      have hdsub : subC (getdomain fuel (gotonext fuel
          { (getaddrspecLoop fuel [] (gotonext fuel st).2).2 with rest := cs2 }).2).1
          st.rest := by
        intro x hx
        rcases hd1 x hx with h1 | h1
        · exact Or.inl (hcs2 x (hw4 x h1))
        · exact Or.inr h1
      have hdrest : subR (getdomain fuel (gotonext fuel
          { (getaddrspecLoop fuel [] (gotonext fuel st).2).2 with rest := cs2 }).2).2.rest
          st.rest := subR_trans hd2 (subR_trans hw4 hcs2)
      split
      · exact ⟨subC_nil _, hdrest⟩
      · constructor
        · refine subC_append (subC_append hflat ?_) hdsub
          intro x hx
          rw [List.mem_singleton] at hx
          rw [hx]
          exact Or.inl (hrest2 '@' (by rw [hr, ← hat]; simp))
        · exact hdrest
    · rw [if_neg hat]
      exact ⟨hflat, hrest2⟩

theorem getrouteaddrLoop_cons : ∀ (fuel : Nat) (er : Bool) (st : PState),
    subC (getrouteaddrLoop fuel er st).1 st.rest ∧
    subR (getrouteaddrLoop fuel er st).2.rest st.rest := by
  intro fuel
  induction fuel with
  | zero => intro er st; exact ⟨subC_nil _, subR_refl _⟩
  | succ fuel ih =>
    intro er st
    rw [getrouteaddrLoop]
    cases hrest : st.rest with
    | nil => exact ⟨subC_nil _, by rw [hrest]; exact subR_refl _⟩
    | cons c cs =>
      dsimp only
      have htail : subR cs (c :: cs) := subR_tail c cs
      by_cases h1 : er = true
      · rw [if_pos h1]
        obtain ⟨hd1, hd2⟩ := getdomain_cons fuel st
        rw [hrest] at hd2
        obtain ⟨hw1, hw2⟩ := gotonext_cons fuel (getdomain fuel st).2
        obtain ⟨h2, h3⟩ := ih false (gotonext fuel (getdomain fuel st).2).2
        exact ⟨subC_mono h2 (subR_trans hw2 hd2), subR_trans h3 (subR_trans hw2 hd2)⟩
      · rw [if_neg h1]
        by_cases h2 : c = '>'
        · rw [if_pos h2]
          exact ⟨subC_nil _, htail⟩
        · rw [if_neg h2]
          by_cases h3 : c = '@'
          · rw [if_pos h3]
            obtain ⟨hw1, hw2⟩ := gotonext_cons fuel { st with rest := cs }
            obtain ⟨h4, h5⟩ := ih true (gotonext fuel { st with rest := cs }).2
            exact ⟨subC_mono h4 (subR_trans hw2 htail),
              subR_trans h5 (subR_trans hw2 htail)⟩
          · rw [if_neg h3]
            by_cases h4 : c = ':'
            · rw [if_pos h4]
              obtain ⟨hw1, hw2⟩ := gotonext_cons fuel { st with rest := cs }
              obtain ⟨h5, h6⟩ := ih false (gotonext fuel { st with rest := cs }).2
              exact ⟨subC_mono h5 (subR_trans hw2 htail),
                subR_trans h6 (subR_trans hw2 htail)⟩
            · rw [if_neg h4]
              obtain ⟨ha1, ha2⟩ := getaddrspec_cons fuel st
              rw [hrest] at ha1 ha2
              exact ⟨ha1, subR_trans (subR_tail_self _) ha2⟩

theorem getrouteaddr_cons (fuel : Nat) (st : PState) :
    subC (getrouteaddr fuel st).1 st.rest ∧ subR (getrouteaddr fuel st).2.rest st.rest := by
  unfold getrouteaddr
  cases hrest : st.rest with
  | nil => exact ⟨subC_nil _, by rw [hrest]; exact subR_refl _⟩
  | cons c cs =>
    dsimp only
    have htail : subR cs (c :: cs) := subR_tail c cs
    by_cases h1 : c = '<'
    · rw [if_pos h1]
      obtain ⟨hw1, hw2⟩ := gotonext_cons fuel { st with rest := cs }
      obtain ⟨h2, h3⟩ := getrouteaddrLoop_cons fuel false (gotonext fuel { st with rest := cs }).2
      exact ⟨subC_mono h2 (subR_trans hw2 htail), subR_trans h3 (subR_trans hw2 htail)⟩
    · rw [if_neg h1]
      exact ⟨subC_nil _, by rw [hrest]; exact subR_refl _⟩

theorem headD_mem {l : List (List Char)} (h : l ≠ []) : l.headD [] ∈ l := by
  cases l with
  | nil => exact absurd rfl h
  | cons x xs => simp

theorem dropComma_rest (st : PState) : subR (dropComma st).rest st.rest := by
  unfold dropComma
  cases hrest : st.rest with
  | nil => rw [hrest]; exact subR_refl _
  | cons c cs =>
    dsimp only
    by_cases h1 : c = ','
    · rw [if_pos h1]
      exact subR_tail c cs
    · rw [if_neg h1]
      rw [hrest]
      exact subR_refl _

theorem getaddress_conservation : ∀ fuel : Nat,
    (∀ st : PState, (∀ pr ∈ (getaddress fuel st).1, subC pr.2 st.rest) ∧
      subR (getaddress fuel st).2.rest st.rest) ∧
    (∀ (acc : List (List Char × List Char)) (st : PState),
      (∀ pr ∈ (getaddressGroupLoop fuel acc st).1, pr ∈ acc ∨ subC pr.2 st.rest) ∧
      subR (getaddressGroupLoop fuel acc st).2.rest st.rest) ∧
    (∀ (saved : List Char) (plist : List (List Char)) (stC : PState) (R : List Char),
      subR saved R → (∀ p ∈ plist, subC p R) → subR stC.rest R →
      (∀ pr ∈ (getaddressStep fuel saved plist stC).1, subC pr.2 R) ∧
      subR (getaddressStep fuel saved plist stC).2.rest R) := by
  intro fuel
  induction fuel with
  | zero =>
    refine ⟨fun st => ⟨fun pr hpr => absurd hpr (List.not_mem_nil _), subR_refl _⟩,
      fun acc st => ⟨fun pr hpr => Or.inl hpr, subR_refl _⟩,
      fun saved plist stC R hs hp hc =>
        ⟨fun pr hpr => absurd hpr (List.not_mem_nil _), hc⟩⟩
  | succ fuel ih =>
    obtain ⟨ihA, ihG, ihS⟩ := ih
    refine ⟨?_, ?_, ?_⟩
    · intro st
      rw [getaddress]
      dsimp only
      obtain ⟨hw1, hw2⟩ := gotonext_cons fuel { st with comments := [] }
      obtain ⟨hp1, hp2⟩ := getphraselist_cons fuel (gotonext fuel { st with comments := [] }).2
      obtain ⟨hq1, hq2⟩ := gotonext_cons fuel
        (getphraselist fuel (gotonext fuel { st with comments := [] }).2).2
      have hsaved : subR (gotonext fuel { st with comments := [] }).2.rest st.rest := hw2
      have hplist : ∀ p ∈ (getphraselist fuel (gotonext fuel { st with comments := [] }).2).1,
          subC p st.rest := fun p hp => subC_mono (hp1 p hp) hw2
      have hstC : subR (gotonext fuel
          (getphraselist fuel (gotonext fuel { st with comments := [] }).2).2).2.rest st.rest :=
        subR_trans hq2 (subR_trans hp2 hw2)
      obtain ⟨hs1, hs2⟩ := ihS _ _ _ st.rest hsaved hplist hstC
      obtain ⟨hr1, hr2⟩ := gotonext_cons fuel
        (getaddressStep fuel (gotonext fuel { st with comments := [] }).2.rest
          (getphraselist fuel (gotonext fuel { st with comments := [] }).2).1
          (gotonext fuel
            (getphraselist fuel (gotonext fuel { st with comments := [] }).2).2).2).2
      exact ⟨hs1, subR_trans (dropComma_rest _) (subR_trans hr2 hs2)⟩
    · intro acc st
      rw [getaddressGroupLoop]
      cases hrest : st.rest with
      | nil => exact ⟨fun pr hpr => Or.inl hpr, by rw [hrest]; exact subR_refl _⟩
      | cons c cs =>
        dsimp only
        obtain ⟨hw1, hw2⟩ := gotonext_cons fuel st
        rw [hrest] at hw2
        cases hr2 : (gotonext fuel st).2.rest with
        | nil => exact ⟨fun pr hpr => Or.inl hpr, hw2⟩
        | cons c2 cs2 =>
          dsimp only
          have hcs2 : subR cs2 (c :: cs) := by
            intro x hx
            exact hw2 x (by rw [hr2]; exact List.mem_cons_of_mem _ hx)
          by_cases h1 : c2 = ';'
          · rw [if_pos h1]
            exact ⟨fun pr hpr => Or.inl hpr, hcs2⟩
          · rw [if_neg h1]
            obtain ⟨ha1, ha2⟩ := ihA (gotonext fuel st).2
            obtain ⟨hg1, hg2⟩ := ihG (acc ++ (getaddress fuel (gotonext fuel st).2).1)
              (getaddress fuel (gotonext fuel st).2).2
            have hsub2 : subR (getaddress fuel (gotonext fuel st).2).2.rest (c :: cs) :=
              subR_trans ha2 hw2
            constructor
            · intro pr hpr
              rcases hg1 pr hpr with h2 | h2
              · rcases List.mem_append.mp h2 with h3 | h3
                · exact Or.inl h3
                · exact Or.inr (subC_mono (ha1 pr h3) hw2)
              · exact Or.inr (subC_mono h2 hsub2)
            · exact subR_trans hg2 hsub2
    · intro saved plist stC R hsaved hplist hstC
      rw [getaddressStep]
      cases hrest : stC.rest with
      | nil =>
        dsimp only
        refine ⟨?_, hstC⟩
        intro pr hpr
        by_cases h1 : plist ≠ []
        · rw [if_pos h1] at hpr
          rw [List.mem_singleton] at hpr
          rw [hpr]
          exact hplist _ (headD_mem h1)
        · rw [if_neg h1] at hpr
          exact absurd hpr (List.not_mem_nil _)
      | cons c cs =>
        dsimp only
        have hcs : subR cs R := by
          intro x hx
          exact hstC x (by rw [hrest]; exact List.mem_cons_of_mem _ hx)
        by_cases h1 : c = '.' ∨ c = '@'
        · rw [if_pos h1]
          obtain ⟨ha1, ha2⟩ := getaddrspec_cons fuel { stC with rest := saved }
          constructor
          · intro pr hpr
            rw [List.mem_singleton] at hpr
            rw [hpr]
            exact subC_mono ha1 hsaved
          · exact subR_trans ha2 hsaved
        · rw [if_neg h1]
          by_cases h2 : c = ':'
          · rw [if_pos h2]
            obtain ⟨hg1, hg2⟩ := ihG [] { stC with rest := cs }
            constructor
            · intro pr hpr
              rcases hg1 pr hpr with h3 | h3
              · exact absurd h3 (List.not_mem_nil _)
              · exact subC_mono h3 hcs
            · exact subR_trans hg2 hcs
          · rw [if_neg h2]
            by_cases h3 : c = '<'
            · rw [if_pos h3]
              obtain ⟨hr1, hr2⟩ := getrouteaddr_cons fuel stC
              rw [hrest] at hr1 hr2
              have haddr : subC (getrouteaddr fuel stC).1 R := by
                intro x hx
                rcases hr1 x hx with h4 | h4
                · exact Or.inl (hstC x (by rw [hrest]; exact h4))
                · exact Or.inr h4
              have hrst : subR (getrouteaddr fuel stC).2.rest R := by
                intro x hx
                exact hstC x (by rw [hrest]; exact hr2 x hx)
              by_cases h4 : (getrouteaddr fuel stC).2.comments ≠ []
              · rw [if_pos h4]
                constructor
                · intro pr hpr
                  rw [List.mem_singleton] at hpr
                  rw [hpr]
                  exact haddr
                · exact hrst
              · rw [if_neg h4]
                constructor
                · intro pr hpr
                  rw [List.mem_singleton] at hpr
                  rw [hpr]
                  exact haddr
                · exact hrst
            · rw [if_neg h3]
              by_cases h5 : plist ≠ []
              · rw [if_pos h5]
                constructor
                · intro pr hpr
                  rw [List.mem_singleton] at hpr
                  rw [hpr]
                  exact hplist _ (headD_mem h5)
                · exact hstC
              · rw [if_neg h5]
                by_cases h6 : c ∈ specialsChars
                · rw [if_pos h6]
                  exact ⟨fun pr hpr => absurd hpr (List.not_mem_nil _), hcs⟩
                · rw [if_neg h6]
                  exact ⟨fun pr hpr => absurd hpr (List.not_mem_nil _), hstC⟩

theorem getaddrlist_cons : ∀ (fuel : Nat) (st : PState),
    (∀ pr ∈ (getaddrlist fuel st).1, subC pr.2 st.rest) ∧
    subR (getaddrlist fuel st).2.rest st.rest := by
  intro fuel
  induction fuel with
  | zero => exact fun st => ⟨fun pr hpr => absurd hpr (List.not_mem_nil _), subR_refl _⟩
  | succ fuel ih =>
    intro st
    rw [getaddrlist]
    cases hrest : st.rest with
    | nil =>
      exact ⟨fun pr hpr => absurd hpr (List.not_mem_nil _),
        by rw [hrest]; exact subR_refl _⟩
    | cons c cs =>
      dsimp only
      obtain ⟨ha1, ha2⟩ := (getaddress_conservation fuel).1 st
      rw [hrest] at ha1 ha2
      obtain ⟨hl1, hl2⟩ := ih (getaddress fuel st).2
      constructor
      · intro pr hpr
        rcases List.mem_append.mp hpr with h1 | h1
        · by_cases h2 : (getaddress fuel st).1 ≠ []
          · rw [if_pos h2] at h1
            exact ha1 pr h1
          · rw [if_neg h2] at h1
            rw [List.mem_singleton] at h1
            rw [h1]
            exact subC_nil _
        · exact subC_mono (hl1 pr h1) ha2
      · exact subR_trans hl2 ha2

theorem pyParseaddr_sub (s : String) : subC (pyParseaddr s).2.data s.data := by
  unfold pyParseaddr
  by_cases h1 : s = ""
  · rw [if_pos h1]
    exact subC_nil _
  · rw [if_neg h1]
    dsimp only
    obtain ⟨hl1, hl2⟩ := getaddrlist_cons ((s.length + 4) * (s.length + 4) * (s.length + 4))
      { rest := s.data, comments := [] }
    cases hr : (getaddrlist ((s.length + 4) * (s.length + 4) * (s.length + 4))
        { rest := s.data, comments := [] }).1 with
    | nil => exact subC_nil _
    | cons pr prs =>
      dsimp only
      cases pr with
      | mk n a =>
        dsimp only
        intro c hc
        exact hl1 (n, a) (by rw [hr]; simp) c hc

theorem pyStrip_subset {c : Char} {l : List Char} (h : c ∈ pyStrip l) : c ∈ l := by
  unfold pyStrip at h
  rw [List.mem_reverse] at h
  have h1 := (List.dropWhile_sublist (l := (l.dropWhile pyIsSpace).reverse) pyIsSpace).subset h
  rw [List.mem_reverse] at h1
  exact (List.dropWhile_sublist (l := l) pyIsSpace).subset h1

theorem clean_value_mem {c : Char} {s : String} (h : c ∈ (clean_value s).data) :
    c ∈ s.data ∨ c = ' ' := by
  have h1 : c ∈ ((s.data.map (fun c => if c = '\xA0' then ' ' else c)).filter
      (fun c => c ≠ '\u200B')) := pyStrip_subset h
  have h2 := (List.mem_filter.mp h1).1
  obtain ⟨d, hd, hdc⟩ := List.mem_map.mp h2
  by_cases h3 : d = '\xA0'
  · rw [if_pos h3] at hdc
    exact Or.inr hdc.symm
  · rw [if_neg h3] at hdc
    rw [← hdc]
    exact Or.inl hd

theorem extractedAddr_at {raw : String} (h : '@' ∈ extractedAddr raw) : '@' ∈ raw.data := by
  unfold extractedAddr at h
  dsimp only at h
  have h1 := pyStrip_subset h
  have hclean : '@' ∈ (clean_value raw).data → '@' ∈ raw.data := by
    intro h2
    rcases clean_value_mem h2 with h3 | h3
    · exact h3
    · exact absurd h3 (by decide)
  by_cases h2 : (pyParseaddr (clean_value raw)).2 = ""
  · rw [if_pos h2] at h1
    exact hclean ((List.mem_filter.mp h1).1)
  · rw [if_neg h2] at h1
    rcases pyParseaddr_sub (clean_value raw) '@' h1 with h3 | h3
    · exact hclean h3
    · exact absurd h3 (by decide)

theorem takeWhile_no_at (a : Char) : ∀ (l1 l2 : List Char), (∀ x ∈ l1, x ≠ a) →
    (l1 ++ a :: l2).takeWhile (fun d => decide (d ≠ a)) = l1 := by
  intro l1
  induction l1 with
  | nil =>
    intro l2 h
    rw [List.nil_append, List.takeWhile_cons_of_neg (by simp)]
  | cons x xs ih =>
    intro l2 h
    have hx : x ≠ a := h x (by simp)
    have h2 : ∀ y ∈ xs, y ≠ a := fun y hy => h y (List.mem_cons_of_mem _ hy)
    rw [List.cons_append, List.takeWhile_cons_of_pos (by simpa using hx), ih l2 h2]

theorem dropWhile_no_at (a : Char) : ∀ (l1 l2 : List Char), (∀ x ∈ l1, x ≠ a) →
    (l1 ++ a :: l2).dropWhile (fun d => decide (d ≠ a)) = a :: l2 := by
  intro l1
  induction l1 with
  | nil =>
    intro l2 h
    rw [List.nil_append, List.dropWhile_cons_of_neg (by simp)]
  | cons x xs ih =>
    intro l2 h
    have hx : x ≠ a := h x (by simp)
    have h2 : ∀ y ∈ xs, y ≠ a := fun y hy => h y (List.mem_cons_of_mem _ hy)
    rw [List.cons_append, List.dropWhile_cons_of_pos (by simpa using hx), ih l2 h2]

theorem span_no_at (l1 : List Char) (a : Char) (l2 : List Char)
    (h : ∀ x ∈ l1, x ≠ a) :
    (l1 ++ a :: l2).span (fun d => d ≠ a) = (l1, a :: l2) := by
  rw [List.span_eq_take_drop, takeWhile_no_at a l1 l2 h, dropWhile_no_at a l1 l2 h]

theorem rsplitAt_append (A B : List Char) (a : Char) (hB : ∀ x ∈ B, x ≠ a) :
    rsplitAt (A ++ a :: B) a = (A, B) := by
  unfold rsplitAt
  have hrev : (A ++ a :: B).reverse = B.reverse ++ a :: A.reverse := by
    rw [List.reverse_append, List.reverse_cons, List.append_assoc]
    rfl
  have hBrev : ∀ x ∈ B.reverse, x ≠ a := fun x hx => hB x (List.mem_reverse.mp hx)
  rw [hrev, span_no_at B.reverse a A.reverse hBrev]
  dsimp only
  rw [List.reverse_reverse, List.reverse_reverse]

theorem mem_rsplitAt_snd {xs : List Char} {a c : Char}
    (h : c ∈ (rsplitAt xs a).2) : c ≠ a := by
  unfold rsplitAt at h
  dsimp only at h
  cases hp : (xs.reverse.span (fun d => d ≠ a)).2 with
  | nil =>
    rw [hp] at h
    exact absurd h (List.not_mem_nil _)
  | cons y ys =>
    rw [hp] at h
    dsimp only at h
    rw [List.mem_reverse] at h
    rw [List.span_eq_take_drop] at h
    have h2 := List.mem_takeWhile_imp h
    simpa using h2

theorem pyEncodeIdna_some_eq {d out : List Char} (h : pyEncodeIdna d = some out) :
    out = d := by
  unfold pyEncodeIdna at h
  by_cases h1 : d = []
  · rw [if_pos h1] at h
    rw [h1]
    exact (Option.some.injEq _ _ ▸ h).symm
  · rw [if_neg h1] at h
    by_cases h2 : d.all (fun c => c.toNat < 128) = true
    · rw [if_pos h2] at h
      by_cases h3 : (splitDots d).dropLast.all (fun l => 0 < l.length ∧ l.length < 64) ∧
          ((splitDots d).getLastD []).length < 64
      · rw [if_pos h3] at h
        exact (Option.some.injEq _ _ ▸ h).symm
      · rw [if_neg h3] at h
        exact absurd h (by simp)
    · rw [if_neg h2] at h
      exact absurd h (by simp)

theorem pyEncodeIdna_ascii {d out : List Char} (h : pyEncodeIdna d = some out) :
    ∀ c ∈ out, c.toNat < 128 := by
  unfold pyEncodeIdna at h
  by_cases h1 : d = []
  · rw [if_pos h1] at h
    have h2 : out = [] := (Option.some.injEq _ _ ▸ h).symm
    rw [h2]
    intro c hc
    exact absurd hc (List.not_mem_nil _)
  · rw [if_neg h1] at h
    by_cases h2 : d.all (fun c => c.toNat < 128) = true
    · rw [if_pos h2] at h
      by_cases h3 : (splitDots d).dropLast.all (fun l => 0 < l.length ∧ l.length < 64) ∧
          ((splitDots d).getLastD []).length < 64
      · rw [if_pos h3] at h
        have h4 : out = d := (Option.some.injEq _ _ ▸ h).symm
        rw [h4]
        intro c hc
        have h5 := List.all_eq_true.mp h2 c hc
        exact of_decide_eq_true h5
      · rw [if_neg h3] at h
        exact absurd h (by simp)
    · rw [if_neg h2] at h
      exact absurd h (by simp)

theorem clean_email_address_some {raw out : String}
    (h : clean_email_address raw = some out) :
    ∃ loc dom : List Char, out.data = loc ++ '@' :: dom ∧
      ∀ c ∈ dom, c ≠ '@' ∧ c.toNat < 128 := by
  unfold clean_email_address at h
  by_cases h1 : raw = ""
  · rw [if_pos h1] at h
    exact absurd h (by simp)
  · rw [if_neg h1] at h
    dsimp only at h
    by_cases h2 : '@' ∈ extractedAddr raw
    · rw [if_pos h2] at h
      injection h with h3
      have h4 : out.data = (rsplitAt (extractedAddr raw) '@').1 ++ '@' ::
          (match pyEncodeIdna (rsplitAt (extractedAddr raw) '@').2 with
           | some d => d
           | none => List.filter (fun c => decide (c.toNat < 128))
               (rsplitAt (extractedAddr raw) '@').2) := by
        rw [← h3]
      refine ⟨_, _, h4, ?_⟩
      cases hE : pyEncodeIdna (rsplitAt (extractedAddr raw) '@').2 with
      | some d =>
        dsimp only
        have h5 := pyEncodeIdna_some_eq hE
        intro c hc
        rw [h5] at hc
        exact ⟨mem_rsplitAt_snd hc, pyEncodeIdna_ascii hE c (h5 ▸ hc)⟩
      | none =>
        dsimp only
        intro c hc
        have h6 := List.mem_filter.mp hc
        exact ⟨mem_rsplitAt_snd h6.1, of_decide_eq_true h6.2⟩
    · rw [if_neg h2] at h
      exact absurd h (by simp)

theorem clean_email_address_isSome (raw : String) :
    (clean_email_address raw).isSome ↔ raw ≠ "" ∧ '@' ∈ extractedAddr raw := by
  unfold clean_email_address
  by_cases h1 : raw = ""
  · rw [if_pos h1]
    simp [h1]
  · rw [if_neg h1]
    dsimp only
    by_cases h2 : '@' ∈ extractedAddr raw
    · rw [if_pos h2]
      simp [h1, h2]
    · rw [if_neg h2]
      simp [h1, h2]

/-- C2: a raw string without an at-sign always normalizes to none, and every
returned address has an ASCII-only domain part (the segment after the last
at-sign); but the presence of an at-sign in the raw string does not guarantee
a non-none result: normalization succeeds exactly when the raw string is
non-empty and the extracted candidate address still contains an at-sign. -/
theorem C2_at_sign_and_ascii_domain (raw : String) :
    ('@' ∉ raw.data → clean_email_address raw = none) ∧
    ((clean_email_address raw).isSome ↔ raw ≠ "" ∧ '@' ∈ extractedAddr raw) ∧
    (∀ out : String, clean_email_address raw = some out →
      ∀ c ∈ (rsplitAt out.data '@').2, c.toNat < 128) := by
  refine ⟨?_, clean_email_address_isSome raw, ?_⟩
  · intro h
    cases hr : clean_email_address raw with
    | none => rfl
    | some out =>
      exfalso
      have h2 : (clean_email_address raw).isSome := by rw [hr]; rfl
      have h3 := ((clean_email_address_isSome raw).mp h2).2
      exact h (extractedAddr_at h3)
  · intro out hout
    obtain ⟨loc, dom, hdata, hdom⟩ := clean_email_address_some hout
    have hsplit : rsplitAt out.data '@' = (loc, dom) := by
      rw [hdata]
      exact rsplitAt_append loc dom '@' (fun x hx => (hdom x hx).1)
    rw [hsplit]
    intro c hc
    exact (hdom c hc).2

/-- C2 counterexample: the raw string with a quoted at-sign contains an
at-sign yet clean_email_address returns none (the structured parse yields
the at-sign-free address x). -/
theorem C2_counterexample :
    '@' ∈ ("\"@\" <x>" : String).data ∧
    clean_email_address "\"@\" <x>" = none :=
  ⟨by decide, by decide⟩

/-- C2 witness: concrete instances of the three conjuncts. -/
theorem C2_at_sign_and_ascii_domain_witness :
    clean_email_address "abc" = none ∧
    (clean_email_address "a@b").isSome ∧
    (∀ c ∈ (rsplitAt ("a@b" : String).data '@').2, c.toNat < 128) :=
  ⟨(C2_at_sign_and_ascii_domain "abc").1 (by decide),
   ((C2_at_sign_and_ascii_domain "a@b").2.1).mpr ⟨by decide, by decide⟩,
   (C2_at_sign_and_ascii_domain "a@b").2.2 "a@b" (by decide)⟩

/-- C3: every address returned by clean_email_address contains at least one
at-sign and its domain part (the segment after the last at-sign) is
ASCII-only; the exactly-one-at-sign and non-empty-local-part clauses of the
claimed invariant do not hold (see the counterexample). -/
theorem C3_address_invariant (raw out : String)
    (h : clean_email_address raw = some out) :
    '@' ∈ out.data ∧ ∀ c ∈ (rsplitAt out.data '@').2, c.toNat < 128 := by
  obtain ⟨loc, dom, hdata, hdom⟩ := clean_email_address_some h
  have hsplit : rsplitAt out.data '@' = (loc, dom) := by
    rw [hdata]
    exact rsplitAt_append loc dom '@' (fun x hx => (hdom x hx).1)
  constructor
  · rw [hdata]
    exact List.mem_append.mpr (Or.inr (by simp))
  · rw [hsplit]
    intro c hc
    exact (hdom c hc).2

/-- C3 counterexample: a returned address can contain two at-signs, and a
returned address can have an empty local part. -/
theorem C3_counterexample :
    clean_email_address "a@b@c" = some "a@b@c" ∧
    ("a@b@c" : String).data.count '@' = 2 ∧
    clean_email_address "@" = some "@" ∧
    (rsplitAt ("@" : String).data '@').1 = [] :=
  ⟨by decide, by decide, by decide, by decide⟩

/-- C3 witness: the invariant instantiated at a concrete address. -/
theorem C3_address_invariant_witness :
    '@' ∈ ("x@y.z" : String).data ∧
    ∀ c ∈ (rsplitAt ("x@y.z" : String).data '@').2, c.toNat < 128 :=
  C3_address_invariant "x@y.z" "x@y.z" (by decide)

end EmailApp
